import Mathlib

/-!
Verification of the discrete-event queueing simulators `mm1n.py` (single-server,
hard horizon cutoff) and `simulator.py` (multi-server with probabilistic routing,
soft/drain cutoff).

The pseudo-random source is modelled as an injected stream of rational draws
(`List ℚ`): `random.expovariate rate` consumes one draw `u` (a unit-rate
exponential sample) and yields `u / rate`; `random.random()` consumes one draw
and yields it unchanged.  Both engines consume the one shared stream in program
order, exactly as both Python programs consume the one global `random` stream.
Machine floats are modelled as exact rationals.  Fallible steps (exceptions,
stream exhaustion) return `Option`; the event loop carries explicit fuel, which
is large enough for every run that a finite stream prefix can drive.

Each state additionally carries a ghost `trace` field recording the dispatched
events in order; it influences nothing the engines compute and exists only so
that theorems can speak about "the events dispatched before termination".
-/

namespace QSim

/-- Event kinds: `ARRIVAL = 0`, `DEPARTURE = 1` in both Python files. -/
inductive EKind where
  | arrival
  | departure
deriving DecidableEq, Repr

/-- The integer rank of an event kind (`ARRIVAL = 0 < DEPARTURE = 1`). -/
def kindRank : EKind → ℕ
  | .arrival => 0
  | .departure => 1

/-- A scheduled event: the Python heap tuples `(time, kind, payload)`.
`mm1n.py` stores `None` or an arrival timestamp as payload (`Option ℚ`);
`simulator.py` stores `None` or a server index (`Option ℕ`). -/
structure Event (π : Type) where
  time : ℚ
  kind : EKind
  payload : π
deriving DecidableEq, Repr

/-- Payload comparison used by Python tuple `<` in `mm1n.py`: departures carry
`some` arrival timestamp, arrivals carry `none`.  Two `none`s are equal (Python
compares them equal inside tuple comparison); mixed `none`/`some` is never
compared by reachable heaps, so the value chosen here is immaterial. -/
def payLtM : Option ℚ → Option ℚ → Bool
  | none, none => false
  | none, some _ => true
  | some _, none => false
  | some a, some b => decide (a < b)

/-- Payload comparison for `simulator.py` heap tuples (server indices). -/
def payLtS : Option ℕ → Option ℕ → Bool
  | none, none => false
  | none, some _ => true
  | some _, none => false
  | some a, some b => decide (a < b)

/-- Lexicographic tuple comparison `(time, kind, payload)` — the order Python
`heapq` uses on the event tuples. -/
def eventLt (pLt : π → π → Bool) (a b : Event π) : Bool :=
  if a.time < b.time then true
  else if b.time < a.time then false
  else if kindRank a.kind < kindRank b.kind then true
  else if kindRank b.kind < kindRank a.kind then false
  else pLt a.payload b.payload

/-- The event order of `mm1n.py`. -/
def ltM : Event (Option ℚ) → Event (Option ℚ) → Bool := eventLt payLtM

/-- The event order of `simulator.py`. -/
def ltS : Event (Option ℕ) → Event (Option ℕ) → Bool := eventLt payLtS

/-- Select a minimal element (leftmost among exact ties) together with the
remaining elements.  This models extraction of the `heapq` minimum. -/
def selectMin (lt : α → α → Bool) : α → List α → α × List α
  | m, [] => (m, [])
  | m, x :: xs =>
    if lt x m then
      ((selectMin lt x xs).1, m :: (selectMin lt x xs).2)
    else
      ((selectMin lt m xs).1, x :: (selectMin lt m xs).2)

/-- `heapq.heappop`: remove and return a minimal element of the queue. -/
def popMin (lt : α → α → Bool) : List α → Option (α × List α)
  | [] => none
  | x :: xs => some (selectMin lt x xs)

/-- `random.expovariate rate` given the unit-rate exponential sample `u`
delivered by the stream. -/
def exp_time (rate : ℚ) (u : ℚ) : ℚ := u / rate

/-! ### The single-server engine `run_mm1n` (mm1n.py) -/

/-- The mutable state of `run_mm1n`, plus the ghost `trace`. -/
structure MState where
  now : ℚ
  serverBusy : Bool
  inSystem : ℤ
  queue : List ℚ
  served : ℕ
  dropped : ℕ
  totalWait : ℚ
  events : List (Event (Option ℚ))
  draws : List ℚ
  trace : List (Event (Option ℚ))
deriving DecidableEq, Repr

/-- One dispatch of a popped event in `run_mm1n` (mm1n.py lines 43-71):
`rest` is the heap after the pop.  `none` models an exception or exhaustion
of the supplied draw prefix. -/
def mdispatch (lam mu : ℚ) (cap : ℤ) (e : Event (Option ℚ))
    (rest : List (Event (Option ℚ))) (s : MState) : Option MState :=
  let s0 : MState := { s with now := e.time, events := rest, trace := s.trace ++ [e] }
  match e.kind with
  | .arrival =>
    match s0.draws with
    | [] => none
    | d1 :: dr1 =>
      let ev1 := s0.events ++ [⟨e.time + exp_time lam d1, .arrival, none⟩]
      if s0.inSystem < cap then
        if s0.serverBusy then
          some { s0 with
                  inSystem := s0.inSystem + 1
                  queue := s0.queue ++ [e.time]
                  events := ev1
                  draws := dr1 }
        else
          match dr1 with
          | [] => none
          | d2 :: dr2 =>
            some { s0 with
                    inSystem := s0.inSystem + 1
                    serverBusy := true
                    events := ev1 ++ [⟨e.time + exp_time mu d2, .departure, some e.time⟩]
                    draws := dr2 }
      else
        some { s0 with
                dropped := s0.dropped + 1
                events := ev1
                draws := dr1 }
  | .departure =>
    match e.payload with
    | none => none
    | some a =>
      let s1 : MState := { s0 with
                            served := s0.served + 1
                            totalWait := s0.totalWait + (e.time - a)
                            inSystem := s0.inSystem - 1 }
      match s1.queue with
      | [] => some { s1 with serverBusy := false }
      | t :: q =>
        match s1.draws with
        | [] => none
        | d :: dr =>
          some { s1 with
                  queue := q
                  events := s1.events ++ [⟨e.time + exp_time mu d, .departure, some t⟩]
                  draws := dr }

/-- The `while events:` loop of `run_mm1n` (mm1n.py lines 37-71) with fuel.
Popping any event with `time > horizon` sets `now := horizon` and breaks. -/
def mloop (lam mu : ℚ) (cap : ℤ) (horizon : ℚ) : ℕ → MState → Option MState
  | 0, _ => none
  | fuel + 1, s =>
    match popMin ltM s.events with
    | none => some s
    | some (e, rest) =>
      if horizon < e.time then some { s with now := horizon, events := rest }
      else
        match mdispatch lam mu cap e rest s with
        | none => none
        | some s1 => mloop lam mu cap horizon fuel s1

/-- Validation and initial state of `run_mm1n` (mm1n.py lines 14-35):
the first arrival is scheduled from the first draw. -/
def run_mm1n_init (lam mu : ℚ) (cap : ℤ) (horizon : ℚ) (draws : List ℚ) :
    Option MState :=
  if lam ≤ 0 ∨ mu ≤ 0 then none
  else if cap < 1 then none
  else if horizon ≤ 0 then none
  else
    match draws with
    | [] => none
    | d :: dr =>
      some { now := 0
             serverBusy := false
             inSystem := 0
             queue := []
             served := 0
             dropped := 0
             totalWait := 0
             events := [⟨exp_time lam d, .arrival, none⟩]
             draws := dr
             trace := [] }

/-- The final state of `run_mm1n`.  The fuel `draws.length + 2` always suffices:
every dispatched event was pushed, and each push after the first consumes at
least one draw. -/
def run_mm1n_state (lam mu : ℚ) (cap : ℤ) (horizon : ℚ) (draws : List ℚ) :
    Option MState :=
  (run_mm1n_init lam mu cap horizon draws).bind (mloop lam mu cap horizon (draws.length + 2))

/-- `run_mm1n` : returns `(served, dropped, average wait, end time)`
(mm1n.py lines 73-74). -/
def run_mm1n (lam mu : ℚ) (cap : ℤ) (horizon : ℚ) (draws : List ℚ) :
    Option (ℕ × ℕ × ℚ × ℚ) :=
  (run_mm1n_state lam mu cap horizon draws).map fun t =>
    (t.served, t.dropped, if t.served = 0 then 0 else t.totalWait / t.served, t.now)

/-- `random.seed(seed)` resets the global stream: a supplied seed selects the
stream `seedStream seed`, `None` leaves the entropy-derived stream `entropy`
(mm1n.py lines 21-24, simulator.py line 43). -/
def seedDraws (seedStream : ℤ → List ℚ) (entropy : List ℚ) : Option ℤ → List ℚ
  | none => entropy
  | some s => seedStream s

/-- `run_mm1n` including the seeding step. -/
def run_mm1n_seeded (seedStream : ℤ → List ℚ) (entropy : List ℚ) (seed : Option ℤ)
    (lam mu : ℚ) (cap : ℤ) (horizon : ℚ) : Option (ℕ × ℕ × ℚ × ℚ) :=
  run_mm1n lam mu cap horizon (seedDraws seedStream entropy seed)

/-! ### The multi-server engine `run_sim` (simulator.py) -/

/-- A `Server` (simulator.py lines 18-28): `capacity = Ni_queue + 1`. -/
structure Server where
  queue : List ℚ
  busy : Bool
  capacity : ℤ
  mu : ℚ
  inSystem : ℤ
deriving DecidableEq, Repr

/-- The routing scan of simulator.py lines 62-73: walk the cumulative sums;
on `r < cumulative` the index is chosen; if the scan falls through, the
initial `chosen = 0` is kept. -/
def chooseAux (r : ℚ) : List ℚ → ℚ → ℕ → ℕ
  | [], _, _ => 0
  | p :: ps, cum, i => if r < cum + p then i else chooseAux r ps (cum + p) (i + 1)

/-- `choose probs r`: the server index the router picks for the draw `r`. -/
def choose (probs : List ℚ) (r : ℚ) : ℕ := chooseAux r probs 0 0

/-- A ghost trace entry: the dispatched event, the routed server (`some` for
arrivals, `none` for departures) and whether the customer was admitted
(always `true` for departures). -/
structure SEntry where
  ev : Event (Option ℕ)
  chosen : Option ℕ
  admitted : Bool
deriving DecidableEq, Repr

/-- The mutable state of `run_sim`, plus the ghost `trace`. -/
structure SState where
  servers : List Server
  served : ℕ
  dropped : ℕ
  totalWait : ℚ
  totalService : ℚ
  events : List (Event (Option ℕ))
  now : ℚ
  draws : List ℚ
  trace : List SEntry
deriving DecidableEq, Repr

/-- One dispatch of a popped event in `run_sim` (simulator.py lines 56-102).
Stream order on an arrival: next interarrival draw, then the uniform routing
draw, then (on admission to an idle server) the service draw. -/
def sdispatch (T lam : ℚ) (probs : List ℚ) (e : Event (Option ℕ))
    (rest : List (Event (Option ℕ))) (s : SState) : Option SState :=
  let s0 : SState := { s with now := e.time, events := rest }
  match e.kind with
  | .arrival =>
    match s0.draws with
    | [] => none
    | d1 :: dr1 =>
      let next := e.time + exp_time lam d1
      let ev1 := if next ≤ T then s0.events ++ [⟨next, .arrival, none⟩] else s0.events
      match dr1 with
      | [] => none
      | r :: dr2 =>
        let chosen := choose probs r
        match s0.servers[chosen]? with
        | none => none
        | some srv =>
          if srv.inSystem < srv.capacity then
            if srv.busy then
              some { s0 with
                      servers := s0.servers.set chosen
                        { srv with inSystem := srv.inSystem + 1, queue := srv.queue ++ [e.time] }
                      events := ev1
                      draws := dr2
                      trace := s0.trace ++ [⟨e, some chosen, true⟩] }
            else
              match dr2 with
              | [] => none
              | d3 :: dr3 =>
                let service := exp_time srv.mu d3
                some { s0 with
                        servers := s0.servers.set chosen
                          { srv with inSystem := srv.inSystem + 1, busy := true }
                        totalService := s0.totalService + service
                        events := ev1 ++ [⟨e.time + service, .departure, some chosen⟩]
                        draws := dr3
                        trace := s0.trace ++ [⟨e, some chosen, true⟩] }
          else
            some { s0 with
                    dropped := s0.dropped + 1
                    events := ev1
                    draws := dr2
                    trace := s0.trace ++ [⟨e, some chosen, false⟩] }
  | .departure =>
    match e.payload with
    | none => none
    | some idx =>
      match s0.servers[idx]? with
      | none => none
      | some srv =>
        match srv.queue with
        | [] =>
          some { s0 with
                  served := s0.served + 1
                  servers := s0.servers.set idx
                    { srv with inSystem := srv.inSystem - 1, busy := false }
                  trace := s0.trace ++ [⟨e, none, true⟩] }
        | t :: q =>
          match s0.draws with
          | [] => none
          | d :: dr =>
            let service := exp_time srv.mu d
            some { s0 with
                    served := s0.served + 1
                    servers := s0.servers.set idx
                      { srv with inSystem := srv.inSystem - 1, queue := q }
                    totalWait := s0.totalWait + (e.time - t)
                    totalService := s0.totalService + service
                    events := s0.events ++ [⟨e.time + service, .departure, some idx⟩]
                    draws := dr
                    trace := s0.trace ++ [⟨e, none, true⟩] }

/-- The `while events:` loop of `run_sim` (simulator.py lines 54-102) with fuel:
every popped event is dispatched; the loop ends when the queue is empty. -/
def sloop (T lam : ℚ) (probs : List ℚ) : ℕ → SState → Option SState
  | 0, _ => none
  | fuel + 1, s =>
    match popMin ltS s.events with
    | none => some s
    | some (e, rest) =>
      match sdispatch T lam probs e rest s with
      | none => none
      | some s1 => sloop T lam probs fuel s1

/-- Validation and initial state of `run_sim` (simulator.py lines 31-52):
parameter checks, server construction (whose constructor re-validates each
`Ni ≥ 0` and `mu > 0`), and the first arrival drawn from the stream. -/
def run_sim_init (T : ℚ) (probs : List ℚ) (lam : ℚ) (queues : List ℤ)
    (mus : List ℚ) (draws : List ℚ) : Option SState :=
  if T ≤ 0 then none
  else if ¬(queues.length = probs.length ∧ mus.length = probs.length) then none
  else if probs.any (fun p => decide (p < 0)) then none
  else if 1 / 1000000000 < |probs.sum - 1| then none
  else if lam ≤ 0 then none
  else if (queues.zip mus).any (fun pr => decide (pr.1 < 0) || decide (pr.2 ≤ 0)) then none
  else
    match draws with
    | [] => none
    | d :: dr =>
      some { servers := (queues.zip mus).map fun pr =>
               { queue := [], busy := false, capacity := pr.1 + 1, mu := pr.2, inSystem := 0 }
             served := 0
             dropped := 0
             totalWait := 0
             totalService := 0
             events := [⟨exp_time lam d, .arrival, none⟩]
             now := 0
             draws := dr
             trace := [] }

/-- The final state of `run_sim`; fuel `draws.length + 2` always suffices
(every pushed event after the first consumed at least one draw). -/
def run_sim_state (T : ℚ) (probs : List ℚ) (lam : ℚ) (queues : List ℤ)
    (mus : List ℚ) (draws : List ℚ) : Option SState :=
  (run_sim_init T probs lam queues mus draws).bind (sloop T lam probs (draws.length + 2))

/-- `run_sim`: returns `(served, dropped, end time, average wait, average
service)` (simulator.py lines 104-106). -/
def run_sim (T : ℚ) (probs : List ℚ) (lam : ℚ) (queues : List ℤ)
    (mus : List ℚ) (draws : List ℚ) : Option (ℕ × ℕ × ℚ × ℚ × ℚ) :=
  (run_sim_state T probs lam queues mus draws).map fun t =>
    (t.served, t.dropped, t.now,
     if t.served = 0 then 0 else t.totalWait / t.served,
     if t.served = 0 then 0 else t.totalService / t.served)

/-- `run_sim` including the seeding step (simulator.py line 43). -/
def run_sim_seeded (seedStream : ℤ → List ℚ) (entropy : List ℚ) (seed : Option ℤ)
    (T : ℚ) (probs : List ℚ) (lam : ℚ) (queues : List ℤ) (mus : List ℚ) :
    Option (ℕ × ℕ × ℚ × ℚ × ℚ) :=
  run_sim T probs lam queues mus (seedDraws seedStream entropy seed)

/-! ### Priority-queue lemmas -/

theorem selectMin_perm (lt : α → α → Bool) (m : α) (xs : List α) :
    List.Perm ((selectMin lt m xs).1 :: (selectMin lt m xs).2) (m :: xs) := by
  induction xs generalizing m with
  | nil => simp [selectMin]
  | cons x xs ih =>
    by_cases hlt : lt x m = true
    · have hgoal : selectMin lt m (x :: xs) =
          ((selectMin lt x xs).1, m :: (selectMin lt x xs).2) := by
        simp [selectMin, hlt]
      rw [hgoal]
      exact (List.Perm.swap m (selectMin lt x xs).1 (selectMin lt x xs).2).trans
        ((ih x).cons m)
    · have hgoal : selectMin lt m (x :: xs) =
          ((selectMin lt m xs).1, x :: (selectMin lt m xs).2) := by
        simp [selectMin, hlt]
      rw [hgoal]
      exact ((List.Perm.swap x (selectMin lt m xs).1 (selectMin lt m xs).2).trans
        ((ih m).cons x)).trans (List.Perm.swap m x xs)

theorem popMin_perm (lt : α → α → Bool) {l : List α} {e : α} {rest : List α}
    (h : popMin lt l = some (e, rest)) : List.Perm (e :: rest) l := by
  cases l with
  | nil => simp [popMin] at h
  | cons x xs =>
    simp only [popMin, Option.some.injEq] at h
    have := selectMin_perm lt x xs
    rw [show e = (selectMin lt x xs).1 by rw [h], show rest = (selectMin lt x xs).2 by rw [h]]
    exact this

theorem popMin_countP (lt : α → α → Bool) {l : List α} {e : α} {rest : List α}
    (h : popMin lt l = some (e, rest)) (p : α → Bool) :
    l.countP p = (if p e then 1 else 0) + rest.countP p := by
  have hp := (popMin_perm lt h).countP_eq p
  rw [← hp, List.countP_cons]
  by_cases hpe : p e
  · simp [hpe]; omega
  · simp [hpe]

theorem popMin_mem (lt : α → α → Bool) {l : List α} {e : α} {rest : List α}
    (h : popMin lt l = some (e, rest)) : e ∈ l ∧ ∀ f ∈ rest, f ∈ l := by
  have hp := popMin_perm lt h
  constructor
  · exact hp.mem_iff.mp (List.mem_cons_self e rest)
  · intro f hf
    exact hp.mem_iff.mp (List.mem_cons_of_mem e hf)

theorem popMin_ne_nil (lt : α → α → Bool) {l : List α} (h : l ≠ []) :
    ∃ x, popMin lt l = some x := by
  cases l with
  | nil => exact absurd rfl h
  | cons x xs => exact ⟨selectMin lt x xs, rfl⟩

/-- `selectMin` really returns a minimum, provided the comparison is
transitive and asymmetric. -/
theorem selectMin_min (lt : α → α → Bool)
    (htr : ∀ a b c, lt a b = true → lt b c = true → lt a c = true)
    (has : ∀ a b, lt a b = true → lt b a = false) (m : α) (xs : List α) :
    ((selectMin lt m xs).1 = m ∨ lt (selectMin lt m xs).1 m = true) ∧
      ∀ x ∈ (selectMin lt m xs).2, lt x (selectMin lt m xs).1 = false := by
  induction xs generalizing m with
  | nil => simp [selectMin]
  | cons x xs ih =>
    by_cases hlt : lt x m = true
    · have hgoal : selectMin lt m (x :: xs) =
          ((selectMin lt x xs).1, m :: (selectMin lt x xs).2) := by
        simp [selectMin, hlt]
      rw [hgoal]
      obtain ⟨ih1, ih2⟩ := ih x
      refine ⟨?_, ?_⟩
      · rcases ih1 with h | h
        · exact Or.inr (by rw [h]; exact hlt)
        · exact Or.inr (htr _ _ _ h hlt)
      · intro y hy
        rcases List.mem_cons.mp hy with rfl | hy2
        · rcases ih1 with h | h
          · rw [h]; exact has _ _ hlt
          · exact has _ _ (htr _ _ _ h hlt)
        · exact ih2 y hy2
    · have hgoal : selectMin lt m (x :: xs) =
          ((selectMin lt m xs).1, x :: (selectMin lt m xs).2) := by
        simp [selectMin, hlt]
      rw [hgoal]
      obtain ⟨ih1, ih2⟩ := ih m
      refine ⟨ih1, ?_⟩
      intro y hy
      rcases List.mem_cons.mp hy with rfl | hy2
      · rcases ih1 with h | h
        · rw [h]; exact Bool.eq_false_iff.mpr hlt
        · cases hxm : lt y (selectMin lt m xs).1 with
          | false => rfl
          | true => exact absurd (htr _ _ _ hxm h) hlt
      · exact ih2 y hy2

/-- Unfolded characterisation of the lexicographic event order. -/
theorem eventLt_iff (pLt : π → π → Bool) (a b : Event π) :
    eventLt pLt a b = true ↔
      a.time < b.time ∨
        a.time = b.time ∧ (kindRank a.kind < kindRank b.kind ∨
          kindRank a.kind = kindRank b.kind ∧ pLt a.payload b.payload = true) := by
  unfold eventLt
  split_ifs with h1 h2 h3 h4
  · simp [h1]
  · simp only [Bool.false_eq_true, false_iff]
    rintro (h | ⟨heq, _⟩) <;> linarith
  · have heq : a.time = b.time := le_antisymm (not_lt.mp h2) (not_lt.mp h1)
    simp only [true_iff]
    exact Or.inr ⟨heq, Or.inl h3⟩
  · have heq : a.time = b.time := le_antisymm (not_lt.mp h2) (not_lt.mp h1)
    simp only [Bool.false_eq_true, false_iff]
    rintro (h | ⟨_, h | ⟨hk, _⟩⟩)
    · linarith
    · omega
    · omega
  · have heq : a.time = b.time := le_antisymm (not_lt.mp h2) (not_lt.mp h1)
    have hk : kindRank a.kind = kindRank b.kind := by omega
    constructor
    · intro h
      exact Or.inr ⟨heq, Or.inr ⟨hk, h⟩⟩
    · rintro (h | ⟨_, h | ⟨_, h⟩⟩)
      · linarith
      · omega
      · exact h

theorem eventLt_trans (pLt : π → π → Bool)
    (ptr : ∀ x y z, pLt x y = true → pLt y z = true → pLt x z = true)
    (a b c : Event π) (hab : eventLt pLt a b = true) (hbc : eventLt pLt b c = true) :
    eventLt pLt a c = true := by
  rw [eventLt_iff] at hab hbc ⊢
  rcases hab with h1 | ⟨h1, h2 | ⟨h2, h3⟩⟩ <;>
    rcases hbc with g1 | ⟨g1, g2 | ⟨g2, g3⟩⟩
  · exact Or.inl (h1.trans g1)
  · exact Or.inl (by linarith)
  · exact Or.inl (by linarith)
  · exact Or.inl (by linarith)
  · exact Or.inr ⟨h1.trans g1, Or.inl (by omega)⟩
  · exact Or.inr ⟨h1.trans g1, Or.inl (by omega)⟩
  · exact Or.inl (by linarith)
  · exact Or.inr ⟨h1.trans g1, Or.inl (by omega)⟩
  · exact Or.inr ⟨h1.trans g1, Or.inr ⟨by omega, ptr _ _ _ h3 g3⟩⟩

theorem eventLt_asymm (pLt : π → π → Bool)
    (pas : ∀ x y, pLt x y = true → pLt y x = false)
    (a b : Event π) (hab : eventLt pLt a b = true) : eventLt pLt b a = false := by
  cases hba : eventLt pLt b a with
  | false => rfl
  | true =>
    exfalso
    rw [eventLt_iff] at hab hba
    rcases hab with h1 | ⟨h1, h2 | ⟨h2, h3⟩⟩ <;>
      rcases hba with g1 | ⟨g1, g2 | ⟨g2, g3⟩⟩
    · linarith
    · linarith
    · linarith
    · linarith
    · omega
    · omega
    · linarith
    · omega
    · have hh := pas _ _ h3
      rw [hh] at g3
      exact Bool.false_ne_true g3

theorem payLtM_trans (x y z : Option ℚ) (h1 : payLtM x y = true)
    (h2 : payLtM y z = true) : payLtM x z = true := by
  cases x <;> cases y <;> cases z <;> simp_all [payLtM]
  linarith

theorem payLtM_asymm (x y : Option ℚ) (h : payLtM x y = true) : payLtM y x = false := by
  cases x <;> cases y <;> simp_all [payLtM]
  linarith

theorem payLtS_trans (x y z : Option ℕ) (h1 : payLtS x y = true)
    (h2 : payLtS y z = true) : payLtS x z = true := by
  cases x <;> cases y <;> cases z <;> simp_all [payLtS]
  omega

theorem payLtS_asymm (x y : Option ℕ) (h : payLtS x y = true) : payLtS y x = false := by
  cases x <;> cases y <;> simp_all [payLtS]
  omega

theorem ltM_trans (a b c : Event (Option ℚ)) (h1 : ltM a b = true) (h2 : ltM b c = true) :
    ltM a c = true :=
  eventLt_trans payLtM payLtM_trans a b c h1 h2

theorem ltM_asymm (a b : Event (Option ℚ)) (h : ltM a b = true) : ltM b a = false :=
  eventLt_asymm payLtM payLtM_asymm a b h

theorem ltS_trans (a b c : Event (Option ℕ)) (h1 : ltS a b = true) (h2 : ltS b c = true) :
    ltS a c = true :=
  eventLt_trans payLtS payLtS_trans a b c h1 h2

theorem ltS_asymm (a b : Event (Option ℕ)) (h : ltS a b = true) : ltS b a = false :=
  eventLt_asymm payLtS payLtS_asymm a b h

theorem popMin_min (lt : α → α → Bool)
    (htr : ∀ a b c, lt a b = true → lt b c = true → lt a c = true)
    (has : ∀ a b, lt a b = true → lt b a = false)
    {l : List α} {e : α} {rest : List α} (h : popMin lt l = some (e, rest)) :
    ∀ f ∈ rest, lt f e = false := by
  cases l with
  | nil => simp [popMin] at h
  | cons x xs =>
    simp only [popMin, Option.some.injEq] at h
    have hm := (selectMin_min lt htr has x xs).2
    intro f hf
    have h1 : e = (selectMin lt x xs).1 := by rw [h]
    have h2 : rest = (selectMin lt x xs).2 := by rw [h]
    exact h1 ▸ hm f (h2 ▸ hf)

/-! ### Router lemmas -/

/-- With the single probability `[1]` the router picks index 0 whatever the
draw: either the scan breaks at index 0 or the fallthrough default 0 is kept. -/
theorem choose_single (r : ℚ) : choose [1] r = 0 := by
  unfold choose chooseAux
  split <;> rfl

/-- Complete case analysis of the routing scan: either it breaks at an offset
`k` (first index whose cumulative prefix sum exceeds `r`), or it falls through
and the default `0` is returned. -/
theorem chooseAux_cases (r : ℚ) (ps : List ℚ) : ∀ (cum : ℚ) (i : ℕ),
    (∃ k, k < ps.length ∧ chooseAux r ps cum i = i + k ∧
        r < cum + (ps.take (k + 1)).sum ∧
        ∀ m, m < k → ¬ r < cum + (ps.take (m + 1)).sum) ∨
      (chooseAux r ps cum i = 0 ∧ ∀ m, m < ps.length → ¬ r < cum + (ps.take (m + 1)).sum) := by
  induction ps with
  | nil =>
    intro cum i
    exact Or.inr ⟨rfl, by simp⟩
  | cons p ps ih =>
    intro cum i
    by_cases hbr : r < cum + p
    · refine Or.inl ⟨0, by simp, ?_, by simpa using hbr, by omega⟩
      simp [chooseAux, hbr]
    · have hrec : chooseAux r (p :: ps) cum i = chooseAux r ps (cum + p) (i + 1) := by
        simp [chooseAux, hbr]
      rcases ih (cum + p) (i + 1) with ⟨k, hk, hres, hup, hmin⟩ | ⟨hres, hall⟩
      · refine Or.inl ⟨k + 1, by simpa using hk, by rw [hrec, hres]; omega, ?_, ?_⟩
        · rw [List.take_succ_cons, List.sum_cons]
          linarith [hup]
        · intro m hm
          cases m with
          | zero => simpa using hbr
          | succ m' =>
            rw [List.take_succ_cons, List.sum_cons]
            have := hmin m' (by omega)
            intro hcon
            exact this (by linarith)
      · refine Or.inr ⟨by rw [hrec, hres], ?_⟩
        intro m hm
        cases m with
        | zero => simpa using hbr
        | succ m' =>
          rw [List.take_succ_cons, List.sum_cons]
          have := hall m' (by simpa using hm)
          intro hcon
          exact this (by linarith)

/-- A zero-probability entry at a positive index is never selected by the
router, for every draw `r`: the scan cannot first exceed `r` at an index that
adds nothing to the cumulative sum, and the fallthrough default is `0`. -/
theorem choose_ne_zero_prob_pos (probs : List ℚ) (r : ℚ) (i : ℕ) (hi : i ≠ 0)
    (hp : probs[i]? = some 0) : choose probs r ≠ i := by
  intro hc
  unfold choose at hc
  rcases chooseAux_cases r probs 0 0 with ⟨k, hk, hres, hup, hmin⟩ | ⟨hres, _⟩
  · rw [hc] at hres
    have hki : k = i := by omega
    subst hki
    have hklen : k < probs.length := hk
    have hgk : probs[k] = 0 := by
      have h2 := List.getElem?_eq_getElem hklen
      rw [h2] at hp
      exact Option.some.inj hp
    have hsum : (probs.take (k + 1)).sum = (probs.take k).sum := by
      have h3 := List.sum_take_succ probs k hklen
      rw [h3, hgk, add_zero]
    have hk1 : k ≠ 0 := hi
    have hmin' := hmin (k - 1) (by omega)
    have hsub : k - 1 + 1 = k := by omega
    rw [hsub] at hmin'
    rw [hsum] at hup
    exact hmin' (by linarith)
  · rw [hc] at hres
    exact hi hres

/-- When the probabilities sum to exactly 1 and the uniform draw lies in
`[0,1)`, no zero-probability server is ever selected (any index). -/
theorem choose_ne_zero_prob_exact (probs : List ℚ) (r : ℚ) (hsum : probs.sum = 1)
    (hr0 : 0 ≤ r) (hr1 : r < 1) (i : ℕ) (hp : probs[i]? = some 0) :
    choose probs r ≠ i := by
  rcases Nat.eq_zero_or_pos i with rfl | hi
  · intro hc
    unfold choose at hc
    have hlen : 0 < probs.length := by
      rcases probs with _ | ⟨p, ps⟩
      · simp at hp
      · simp
    have hp0 : probs[0] = 0 := by
      have h2 := List.getElem?_eq_getElem hlen
      rw [h2] at hp
      exact Option.some.inj hp
    rcases chooseAux_cases r probs 0 0 with ⟨k, hk, hres, hup, hmin⟩ | ⟨_, hall⟩
    · rw [hc] at hres
      have hk0 : k = 0 := by omega
      subst hk0
      have htake1 : (probs.take 1).sum = 0 := by
        have h3 := List.sum_take_succ probs 0 hlen
        simp at h3
        rw [h3, hp0]
      rw [htake1] at hup
      linarith
    · have hlast := hall (probs.length - 1) (by omega)
      have htake : probs.take (probs.length - 1 + 1) = probs := by
        rw [show probs.length - 1 + 1 = probs.length by omega]
        exact List.take_length probs
      rw [htake, hsum] at hlast
      exact hlast (by linarith)
  · exact choose_ne_zero_prob_pos probs r i (by omega) hp

/-! ### mm1n invariants -/

/-- Is this event an Arrival? -/
def isArr (e : Event π) : Bool := decide (e.kind = EKind.arrival)

/-- Is this event a Departure? -/
def isDep (e : Event π) : Bool := decide (e.kind = EKind.departure)

/-- The loop invariant of `run_mm1n`, at loop boundaries: server-state sanity,
exactly one pending arrival, one pending departure iff busy, and conservation
of customers against the ghost trace. -/
def MGood (cap : ℤ) (s : MState) : Prop :=
  0 ≤ s.inSystem ∧ s.inSystem ≤ cap ∧ (s.serverBusy = true ↔ 0 < s.inSystem) ∧
    (s.queue.length : ℤ) = max 0 (s.inSystem - 1) ∧
    s.events.countP isArr = 1 ∧
    s.events.countP isDep = (if s.serverBusy then 1 else 0) ∧
    (s.served : ℤ) + s.dropped + s.inSystem = s.trace.countP isArr

theorem run_mm1n_init_good {lam mu : ℚ} {cap : ℤ} {horizon : ℚ} {draws : List ℚ}
    {s0 : MState} (h : run_mm1n_init lam mu cap horizon draws = some s0) :
    MGood cap s0 ∧ 1 ≤ cap ∧ 0 < lam ∧ 0 < mu ∧ 0 < horizon := by
  unfold run_mm1n_init at h
  split_ifs at h with h1 h2 h3
  rcases draws with _ | ⟨d, dr⟩
  · simp at h
  · simp only [Option.some.injEq] at h
    subst h
    push_neg at h1
    refine ⟨?_, by omega, h1.1, h1.2, by linarith⟩
    unfold MGood
    dsimp only
    refine ⟨by omega, by omega, by simp, by simp, ?_, ?_, ?_⟩
    · simp [isArr, List.countP_cons]
    · simp [isDep, List.countP_cons]
    · simp

theorem mdispatch_good {lam mu : ℚ} {cap : ℤ} {e : Event (Option ℚ)}
    {rest : List (Event (Option ℚ))} {s s1 : MState} (hg : MGood cap s)
    (hpop : popMin ltM s.events = some (e, rest))
    (hd : mdispatch lam mu cap e rest s = some s1) : MGood cap s1 := by
  obtain ⟨hin0, hinc, hbusy, hqlen, harr, hdep, hcons⟩ := hg
  have harr2 := popMin_countP ltM hpop isArr
  have hdep2 := popMin_countP ltM hpop isDep
  rw [harr] at harr2
  rw [hdep] at hdep2
  obtain ⟨now, busy, insys, q, sv, dp, tw, evs, drs, tr⟩ := s
  simp only at hin0 hinc hbusy hqlen harr hdep hcons harr2 hdep2
  cases hk : e.kind with
  | arrival =>
    have hde : isDep e = false := by simp [isDep, hk]
    have hae : isArr e = true := by simp [isArr, hk]
    rw [hae] at harr2
    rw [hde] at hdep2
    rw [if_pos rfl] at harr2
    rw [if_neg Bool.false_ne_true, zero_add] at hdep2
    have hrarr : rest.countP isArr = 0 := by omega
    have hrdep : rest.countP isDep = if busy = true then 1 else 0 := hdep2.symm
    simp only [mdispatch, hk] at hd
    cases drs with
    | nil => simp at hd
    | cons d1 dr1 =>
      simp only at hd
      by_cases hlt : insys < cap
      · rw [if_pos hlt] at hd
        cases busy with
        | true =>
          rw [if_pos rfl] at hd
          simp only [Option.some.injEq] at hd
          subst hd
          have hpos : 0 < insys := hbusy.mp rfl
          rw [if_pos rfl] at hrdep
          unfold MGood
          dsimp only
          refine ⟨by omega, by omega, by simp; omega, ?_, ?_, ?_, ?_⟩
          · simp only [List.length_append, List.length_cons, List.length_nil]
            push_cast
            omega
          · simp [List.countP_append, List.countP_cons, hrarr, isArr]
          · simp [List.countP_append, List.countP_cons, hrdep, isDep]
          · simp only [List.countP_append, List.countP_cons, List.countP_nil, hae]
            push_cast
            omega
        | false =>
          rw [if_neg (by simp)] at hd
          cases dr1 with
          | nil => simp at hd
          | cons d2 dr2 =>
            simp only [Option.some.injEq] at hd
            subst hd
            have hzero : insys = 0 := by
              rcases lt_or_le 0 insys with hgt | hle
              · exact absurd (hbusy.mpr hgt) (by simp)
              · omega
            rw [if_neg Bool.false_ne_true] at hrdep
            unfold MGood
            dsimp only
            refine ⟨by omega, by omega, by simp; omega, ?_, ?_, ?_, ?_⟩
            · omega
            · simp [List.countP_append, List.countP_cons, hrarr, isArr, isDep]
            · simp [List.countP_append, List.countP_cons, hrdep, isArr, isDep]
            · simp only [List.countP_append, List.countP_cons, List.countP_nil, hae]
              push_cast
              omega
      · rw [if_neg hlt] at hd
        simp only [Option.some.injEq] at hd
        subst hd
        unfold MGood
        dsimp only
        refine ⟨by omega, by omega, by simpa using hbusy, by simpa using hqlen, ?_, ?_, ?_⟩
        · simp [List.countP_append, List.countP_cons, hrarr, isArr]
        · simp [List.countP_append, List.countP_cons, hrdep, isDep]
        · simp only [List.countP_append, List.countP_cons, List.countP_nil, hae]
          push_cast
          omega
  | departure =>
    have hde : isDep e = true := by simp [isDep, hk]
    have hae : isArr e = false := by simp [isArr, hk]
    rw [hae] at harr2
    rw [hde] at hdep2
    rw [if_neg Bool.false_ne_true, zero_add] at harr2
    rw [if_pos rfl] at hdep2
    have hrarr : rest.countP isArr = 1 := harr2.symm
    have hbs : busy = true := by
      cases busy with
      | false => rw [if_neg Bool.false_ne_true] at hdep2; omega
      | true => rfl
    subst hbs
    rw [if_pos rfl] at hdep2
    have hpos : 0 < insys := hbusy.mp rfl
    have hrdep : rest.countP isDep = 0 := by omega
    simp only [mdispatch, hk] at hd
    cases hp : e.payload with
    | none => rw [hp] at hd; simp at hd
    | some a =>
      rw [hp] at hd
      simp only at hd
      cases hq : q with
      | nil =>
        rw [hq] at hd
        simp only [Option.some.injEq] at hd
        subst hd
        have hone : insys = 1 := by
          rw [hq] at hqlen
          simp at hqlen
          omega
        unfold MGood
        dsimp only
        refine ⟨by omega, by omega, by simp; omega, by simp; omega, ?_, ?_, ?_⟩
        · simpa using hrarr
        · simpa using hrdep
        · simp only [List.countP_append, List.countP_cons, List.countP_nil, hae]
          push_cast
          omega
      | cons t qrest =>
        rw [hq] at hd
        simp only at hd
        cases drs with
        | nil => simp at hd
        | cons d dr =>
          simp only [Option.some.injEq] at hd
          subst hd
          have hlen2 : 2 ≤ insys := by
            rw [hq] at hqlen
            simp at hqlen
            omega
          unfold MGood
          dsimp only
          refine ⟨by omega, by omega, by simp; omega, ?_, ?_, ?_, ?_⟩
          · rw [hq] at hqlen
            simp at hqlen ⊢
            omega
          · simp [List.countP_append, List.countP_cons, hrarr, isArr, isDep]
          · simp [List.countP_append, List.countP_cons, hrdep, isDep]
          · simp only [List.countP_append, List.countP_cons, List.countP_nil, hae]
            push_cast
            omega

/-- Every event is an Arrival or a Departure, so the two counts add up to the
queue length. -/
theorem length_eq_countArr_add_countDep (l : List (Event π)) :
    l.length = l.countP isArr + l.countP isDep := by
  induction l with
  | nil => simp
  | cons e es ih =>
    rw [List.countP_cons, List.countP_cons, List.length_cons]
    cases hk : e.kind <;> simp [isArr, isDep, hk] <;> omega

/-- States reachable from `s` by dispatch steps of the `run_mm1n` loop. -/
inductive MReach (lam mu : ℚ) (cap : ℤ) : MState → MState → Prop where
  | refl (s : MState) : MReach lam mu cap s s
  | head {s s1 t : MState} {e : Event (Option ℚ)} {rest : List (Event (Option ℚ))}
      (hpop : popMin ltM s.events = some (e, rest))
      (hd : mdispatch lam mu cap e rest s = some s1)
      (htail : MReach lam mu cap s1 t) : MReach lam mu cap s t

theorem mreach_good {lam mu : ℚ} {cap : ℤ} {s t : MState} (hg : MGood cap s)
    (hr : MReach lam mu cap s t) : MGood cap t := by
  induction hr with
  | refl => exact hg
  | head hpop hd _ ih => exact ih (mdispatch_good hg hpop hd)

/-- Under the invariant the event queue is never empty, so the `run_mm1n`
loop can only finish through the horizon break: the final `now` is the
horizon, and the conservation equation still holds in the final state
(the break changes only `now` and `events`). -/
theorem mloop_final {lam mu : ℚ} {cap : ℤ} {horizon : ℚ} :
    ∀ (fuel : ℕ) (s t : MState), MGood cap s →
      mloop lam mu cap horizon fuel s = some t →
      t.now = horizon ∧ (t.served : ℤ) + t.dropped + t.inSystem = t.trace.countP isArr ∧
        0 ≤ t.inSystem ∧ t.inSystem ≤ cap := by
  intro fuel
  induction fuel with
  | zero => intro s t hg h; simp [mloop] at h
  | succ n ih =>
    intro s t hg h
    have hne : s.events ≠ [] := by
      intro hnil
      have := hg.2.2.2.2.1
      rw [hnil] at this
      simp at this
    obtain ⟨⟨e, rest⟩, hpop⟩ := popMin_ne_nil ltM hne
    rw [mloop, hpop] at h
    dsimp only at h
    by_cases hhor : horizon < e.time
    · rw [if_pos hhor] at h
      simp only [Option.some.injEq] at h
      subst h
      obtain ⟨h1, h2, h3, h4, h5, h6, h7⟩ := hg
      exact ⟨rfl, h7, h1, h2⟩
    · rw [if_neg hhor] at h
      cases hd : mdispatch lam mu cap e rest s with
      | none => rw [hd] at h; simp at h
      | some s1 =>
        rw [hd] at h
        exact ih s1 t (mdispatch_good hg hpop hd) h

/-- If the loop returns, the final state is reachable by dispatch steps from
the start state (the horizon break changes only `now` and the event queue,
so all server fields of the final state equal those of a reachable state). -/
theorem mloop_reach {lam mu : ℚ} {cap : ℤ} {horizon : ℚ} :
    ∀ (fuel : ℕ) (s t : MState), mloop lam mu cap horizon fuel s = some t →
      MReach lam mu cap s t ∨
        ∃ u e rest, MReach lam mu cap s u ∧ popMin ltM u.events = some (e, rest) ∧
          horizon < e.time ∧ t = { u with now := horizon, events := rest } := by
  intro fuel
  induction fuel with
  | zero => intro s t h; simp [mloop] at h
  | succ n ih =>
    intro s t h
    rw [mloop] at h
    cases hpop : popMin ltM s.events with
    | none =>
      rw [hpop] at h
      dsimp only at h
      simp only [Option.some.injEq] at h
      subst h
      exact Or.inl (MReach.refl s)
    | some er =>
      obtain ⟨e, rest⟩ := er
      rw [hpop] at h
      dsimp only at h
      by_cases hhor : horizon < e.time
      · rw [if_pos hhor] at h
        simp only [Option.some.injEq] at h
        exact Or.inr ⟨s, e, rest, MReach.refl s, hpop, hhor, h.symm⟩
      · rw [if_neg hhor] at h
        cases hd : mdispatch lam mu cap e rest s with
        | none => rw [hd] at h; simp at h
        | some s1 =>
          rw [hd] at h
          rcases ih s1 t h with hr | ⟨u, e2, rest2, hr, hp2, hh2, ht⟩
          · exact Or.inl (MReach.head hpop hd hr)
          · exact Or.inr ⟨u, e2, rest2, MReach.head hpop hd hr, hp2, hh2, ht⟩

/-- Dispatching an Arrival in `run_mm1n` always pushes the next arrival event
(at `now + exp_time lam d1`), whatever that time is — in particular even when
it lies beyond the horizon. -/
theorem mdispatch_arrival_schedules {lam mu : ℚ} {cap : ℤ} {e : Event (Option ℚ)}
    {rest : List (Event (Option ℚ))} {s s1 : MState} {d1 : ℚ} {dr1 : List ℚ}
    (hk : e.kind = .arrival) (hdr : s.draws = d1 :: dr1)
    (hd : mdispatch lam mu cap e rest s = some s1) :
    Event.mk (e.time + exp_time lam d1) .arrival none ∈ s1.events := by
  obtain ⟨now, busy, insys, q, sv, dp, tw, evs, drs, tr⟩ := s
  simp only at hdr
  subst hdr
  simp only [mdispatch, hk] at hd
  by_cases hlt : insys < cap
  · rw [if_pos hlt] at hd
    cases busy with
    | true =>
      rw [if_pos rfl] at hd
      simp only [Option.some.injEq] at hd
      subst hd
      simp
    | false =>
      rw [if_neg (by simp)] at hd
      cases dr1 with
      | nil => simp at hd
      | cons d2 dr2 =>
        simp only [Option.some.injEq] at hd
        subst hd
        simp
  · rw [if_neg hlt] at hd
    simp only [Option.some.injEq] at hd
    subst hd
    simp

/-- The `run_mm1n` loop, on popping any event beyond the horizon, immediately
returns with `now := horizon`, discarding the popped event and all later ones. -/
theorem mloop_break {lam mu : ℚ} {cap : ℤ} {horizon : ℚ} {fuel : ℕ} {s : MState}
    {e : Event (Option ℚ)} {rest : List (Event (Option ℚ))}
    (hpop : popMin ltM s.events = some (e, rest)) (hhor : horizon < e.time) :
    mloop lam mu cap horizon (fuel + 1) s = some { s with now := horizon, events := rest } := by
  rw [mloop, hpop]
  dsimp only
  rw [if_pos hhor]

/-- In `run_mm1n`, a Departure for the customer with arrival timestamp `a`
adds `now - a` — the full sojourn time from arrival to departure, service
included — to `totalWait`. -/
theorem mdispatch_departure_wait {lam mu : ℚ} {cap : ℤ} {e : Event (Option ℚ)}
    {rest : List (Event (Option ℚ))} {s s1 : MState} {a : ℚ}
    (hk : e.kind = .departure) (hp : e.payload = some a)
    (hd : mdispatch lam mu cap e rest s = some s1) :
    s1.totalWait = s.totalWait + (e.time - a) := by
  obtain ⟨now, busy, insys, q, sv, dp, tw, evs, drs, tr⟩ := s
  simp only [mdispatch, hk, hp] at hd
  cases hq : q with
  | nil =>
    rw [hq] at hd
    simp only [Option.some.injEq] at hd
    subst hd
    rfl
  | cons t qrest =>
    rw [hq] at hd
    simp only at hd
    cases drs with
    | nil => simp at hd
    | cons d dr =>
      simp only [Option.some.injEq] at hd
      subst hd
      rfl

/-- Run-level facts about `run_mm1n`: the returned end time is the horizon and
conservation holds in the final state. -/
theorem run_mm1n_state_final {lam mu : ℚ} {cap : ℤ} {horizon : ℚ} {draws : List ℚ}
    {t : MState} (h : run_mm1n_state lam mu cap horizon draws = some t) :
    t.now = horizon ∧ (t.served : ℤ) + t.dropped + t.inSystem = t.trace.countP isArr ∧
      0 ≤ t.inSystem ∧ t.inSystem ≤ cap := by
  unfold run_mm1n_state at h
  cases hinit : run_mm1n_init lam mu cap horizon draws with
  | none => rw [hinit] at h; simp at h
  | some s0 =>
    rw [hinit] at h
    rw [Option.some_bind] at h
    exact mloop_final (draws.length + 2) s0 t (run_mm1n_init_good hinit).1 h

/-! ### run_sim invariants -/

/-- Is this event a pending Departure for server `i`? -/
def isDepFor (i : ℕ) (e : Event (Option ℕ)) : Bool :=
  isDep e && decide (e.payload = some i)

/-- Sanity of one `Server`: bounded occupancy, busy flag coherent with the
occupancy count, and the FIFO wait list holding exactly the queued customers. -/
def srvGood (srv : Server) : Prop :=
  0 ≤ srv.inSystem ∧ srv.inSystem ≤ srv.capacity ∧
    (srv.busy = true ↔ 0 < srv.inSystem) ∧
    (srv.queue.length : ℤ) = max 0 (srv.inSystem - 1)

/-- Total number of customers in the system, over all servers. -/
def sumInSystem (l : List Server) : ℤ := (l.map Server.inSystem).sum

/-- Number of Arrival events in the ghost trace. -/
def countArrE (tr : List SEntry) : ℕ := tr.countP fun en => isArr en.ev

/-- Number of admissions routed to server `i` in the ghost trace. -/
def admissionsTo (i : ℕ) (tr : List SEntry) : ℕ :=
  tr.countP fun en => isArr en.ev && decide (en.chosen = some i) && en.admitted

/-- The loop invariant of `run_sim`, at loop boundaries. -/
def SGood (M : ℕ) (s : SState) : Prop :=
  s.servers.length = M ∧
    (∀ srv ∈ s.servers, srvGood srv) ∧
    s.events.countP isArr ≤ 1 ∧
    (∀ e ∈ s.events, e.kind = EKind.departure → ∃ i, i < M ∧ e.payload = some i) ∧
    (∀ i srv, s.servers[i]? = some srv →
      s.events.countP (isDepFor i) = if srv.busy then 1 else 0) ∧
    (s.served : ℤ) + s.dropped + sumInSystem s.servers = countArrE s.trace ∧
    ∀ le, s.trace.getLast? = some le → s.now = le.ev.time

theorem sumInSystem_set : ∀ {l : List Server} {i : ℕ} {srv : Server} (srv2 : Server),
    l[i]? = some srv → sumInSystem (l.set i srv2) = sumInSystem l - srv.inSystem + srv2.inSystem := by
  intro l
  induction l with
  | nil => intro i srv srv2 h; simp at h
  | cons x xs ih =>
    intro i srv srv2 h
    cases i with
    | zero =>
      rw [List.getElem?_cons_zero] at h
      injection h with h
      subst h
      simp [sumInSystem]
      ring
    | succ n =>
      rw [List.getElem?_cons_succ] at h
      have hih := ih srv2 h
      simp only [List.set, sumInSystem, List.map_cons, List.sum_cons] at hih ⊢
      rw [hih]
      ring

theorem run_sim_init_good {T : ℚ} {probs : List ℚ} {lam : ℚ} {queues : List ℤ}
    {mus : List ℚ} {draws : List ℚ} {s0 : SState}
    (h : run_sim_init T probs lam queues mus draws = some s0) :
    SGood probs.length s0 ∧ 0 < T ∧ 0 < lam := by
  unfold run_sim_init at h
  split_ifs at h with h1 h2 h3 h4 h5 h6
  rcases draws with _ | ⟨d, dr⟩
  · simp at h
  · simp only [Option.some.injEq] at h
    subst h
    push_neg at h2
    refine ⟨?_, by linarith, by linarith⟩
    unfold SGood
    dsimp only
    obtain ⟨hq, hm⟩ := h2
    refine ⟨?_, ?_, ?_, ?_, ?_, ?_, ?_⟩
    · simp [List.length_zip]
      omega
    · intro srv hsrv
      simp only [List.mem_map] at hsrv
      obtain ⟨pr, hpr, hsrv⟩ := hsrv
      subst hsrv
      have hnn : 0 ≤ pr.1 := by
        by_contra hneg
        exact h6 (List.any_eq_true.mpr ⟨pr, hpr, by simp; omega⟩)
      exact ⟨le_refl 0, by dsimp only; omega, by simp, by simp⟩
    · simp [isArr, List.countP_cons]
    · intro e he hk
      simp at he
      rw [he] at hk
      simp at hk
    · intro i srv hsrv
      have hmem : srv ∈ (queues.zip mus).map fun pr =>
          ({ queue := [], busy := false, capacity := pr.1 + 1, mu := pr.2, inSystem := 0 } : Server) := by
        rw [List.getElem?_eq_some] at hsrv
        obtain ⟨hlt, hget⟩ := hsrv
        exact hget ▸ List.getElem_mem hlt
      simp only [List.mem_map] at hmem
      obtain ⟨pr, _, hpr⟩ := hmem
      subst hpr
      simp [isDepFor, isDep, List.countP_cons]
    · have hzero : sumInSystem ((queues.zip mus).map fun pr =>
          ({ queue := [], busy := false, capacity := pr.1 + 1, mu := pr.2, inSystem := 0 } : Server)) = 0 := by
        unfold sumInSystem
        rw [List.map_map]
        apply List.sum_eq_zero
        intro z hz
        simp only [List.mem_map] at hz
        obtain ⟨pr, _, hpr⟩ := hz
        simp [← hpr, Function.comp]
      rw [hzero]
      simp [countArrE]
    · intro le hle
      simp at hle

theorem isDepFor_arrival {e : Event (Option ℕ)} (hk : e.kind = EKind.arrival) (i : ℕ) :
    isDepFor i e = false := by
  simp [isDepFor, isDep, hk]

theorem countP_concat_dep_depFor (i j : ℕ) (t : ℚ) (b : List (Event (Option ℕ))) :
    (b ++ [Event.mk t EKind.departure (some j)]).countP (isDepFor i) =
      b.countP (isDepFor i) + (if j = i then 1 else 0) := by
  rw [List.countP_append, List.countP_cons, List.countP_nil]
  by_cases hij : j = i
  · subst hij
    simp [isDepFor, isDep]
  · simp [isDepFor, isDep, hij]

theorem countP_concat_arr_depFor (i : ℕ) (t : ℚ) (b : List (Event (Option ℕ))) :
    (b ++ [Event.mk t EKind.arrival none]).countP (isDepFor i) = b.countP (isDepFor i) := by
  rw [List.countP_append, List.countP_cons, List.countP_nil]
  simp [isDepFor, isDep]

theorem countP_ite_arr_depFor (i : ℕ) (c : Prop) [Decidable c] (t : ℚ)
    (b : List (Event (Option ℕ))) :
    (if c then b ++ [Event.mk t EKind.arrival none] else b).countP (isDepFor i) =
      b.countP (isDepFor i) := by
  split
  · exact countP_concat_arr_depFor i t b
  · rfl

theorem countP_concat_arr_isArr (t : ℚ) (b : List (Event (Option ℕ))) :
    (b ++ [Event.mk t EKind.arrival none]).countP isArr = b.countP isArr + 1 := by
  rw [List.countP_append, List.countP_cons, List.countP_nil]
  simp [isArr]

theorem countP_concat_dep_isArr (j : ℕ) (t : ℚ) (b : List (Event (Option ℕ))) :
    (b ++ [Event.mk t EKind.departure (some j)]).countP isArr = b.countP isArr := by
  rw [List.countP_append, List.countP_cons, List.countP_nil]
  simp [isArr]

theorem sdispatch_good {T lam : ℚ} {probs : List ℚ} {M : ℕ} {e : Event (Option ℕ)}
    {rest : List (Event (Option ℕ))} {s s1 : SState} (hg : SGood M s)
    (hpop : popMin ltS s.events = some (e, rest))
    (hd : sdispatch T lam probs e rest s = some s1) : SGood M s1 := by
  obtain ⟨hlen, hsrvs, harr, hvalid, hdepc, hcons, hlast⟩ := hg
  have harr2 := popMin_countP ltS hpop isArr
  have hmem := popMin_mem ltS hpop
  obtain ⟨servers, sv, dp, tw, ts, evs, now0, drs, tr⟩ := s
  simp only at hlen hsrvs harr hvalid hdepc hcons hlast harr2 hmem
  have hvrest : ∀ f ∈ rest, f.kind = EKind.departure → ∃ i, i < M ∧ f.payload = some i :=
    fun f hf => hvalid f (hmem.2 f hf)
  cases hk : e.kind with
  | arrival =>
    have hae : isArr e = true := by simp [isArr, hk]
    rw [hae, if_pos rfl] at harr2
    have hrarr : rest.countP isArr = 0 := by omega
    have hrdep : ∀ i, rest.countP (isDepFor i) = evs.countP (isDepFor i) := by
      intro i
      have h2 := popMin_countP ltS hpop (isDepFor i)
      rw [isDepFor_arrival hk, if_neg Bool.false_ne_true, zero_add] at h2
      exact h2.symm
    simp only [sdispatch, hk] at hd
    cases drs with
    | nil => simp at hd
    | cons d1 dr1 =>
      dsimp only at hd
      cases dr1 with
      | nil => simp at hd
      | cons r dr2 =>
        dsimp only at hd
        cases hsome : servers[choose probs r]? with
        | none => rw [hsome] at hd; simp at hd
        | some srv =>
          rw [hsome] at hd
          dsimp only at hd
          have hclt : choose probs r < servers.length := by
            rw [List.getElem?_eq_some] at hsome
            exact hsome.1
          have hsmem : srv ∈ servers := by
            rw [List.getElem?_eq_some] at hsome
            obtain ⟨hlt2, hget⟩ := hsome
            exact hget ▸ List.getElem_mem hlt2
          obtain ⟨hs0, hsc, hsb, hsq⟩ := hsrvs srv hsmem
          by_cases hcap : srv.inSystem < srv.capacity
          · rw [if_pos hcap] at hd
            cases hbusy : srv.busy with
            | true =>
              rw [hbusy, if_pos rfl] at hd
              simp only [Option.some.injEq] at hd
              subst hd
              have hpos : 0 < srv.inSystem := hsb.mp hbusy
              unfold SGood
              dsimp only
              refine ⟨by simp [List.length_set, hlen], ?_, ?_, ?_, ?_, ?_, ?_⟩
              · intro x hx
                rcases List.mem_or_eq_of_mem_set hx with hx2 | rfl
                · exact hsrvs x hx2
                · unfold srvGood
                  dsimp only
                  refine ⟨by omega, by omega, by simp; omega, ?_⟩
                  · simp only [List.length_append, List.length_cons, List.length_nil]
                    push_cast
                    omega
              · by_cases hT : e.time + exp_time lam d1 ≤ T
                · rw [if_pos hT, countP_concat_arr_isArr, hrarr]
                · rw [if_neg hT]
                  omega
              · intro f hf hfk
                by_cases hT : e.time + exp_time lam d1 ≤ T
                · rw [if_pos hT] at hf
                  rcases List.mem_append.mp hf with hf2 | hf2
                  · exact hvrest f hf2 hfk
                  · have hf3 := List.mem_singleton.mp hf2
                    subst hf3
                    simp at hfk
                · rw [if_neg hT] at hf
                  exact hvrest f hf hfk
              · intro i srv' hget
                rw [List.getElem?_set] at hget
                rw [countP_ite_arr_depFor, hrdep i]
                by_cases hic : choose probs r = i
                · rw [if_pos hic, if_pos hclt] at hget
                  injection hget with hget
                  subst hget
                  dsimp only
                  rw [← hic, hdepc (choose probs r) srv hsome, hbusy]
                · rw [if_neg hic] at hget
                  exact hdepc i srv' hget
              · rw [sumInSystem_set _ hsome]
                have htr : countArrE (tr ++ [⟨e, some (choose probs r), true⟩]) =
                    countArrE tr + 1 := by
                  unfold countArrE
                  rw [List.countP_append, List.countP_cons, List.countP_nil]
                  simp [hae]
                rw [htr]
                dsimp only
                push_cast
                omega
              · intro le hle
                rw [List.getLast?_concat] at hle
                injection hle with hle
                subst hle
                rfl
            | false =>
              rw [hbusy, if_neg Bool.false_ne_true] at hd
              cases dr2 with
              | nil => simp at hd
              | cons d3 dr3 =>
                dsimp only at hd
                simp only [Option.some.injEq] at hd
                subst hd
                have hzero : srv.inSystem = 0 := by
                  rcases lt_or_le 0 srv.inSystem with hgt | hle
                  · rw [hsb.mpr hgt] at hbusy; exact absurd hbusy (by simp)
                  · omega
                have hq0 : srv.queue.length = 0 := by
                  rw [hzero] at hsq
                  omega
                have hdc0 : evs.countP (isDepFor (choose probs r)) = 0 := by
                  rw [hdepc (choose probs r) srv hsome, hbusy]
                  simp
                unfold SGood
                dsimp only
                refine ⟨by simp [List.length_set, hlen], ?_, ?_, ?_, ?_, ?_, ?_⟩
                · intro x hx
                  rcases List.mem_or_eq_of_mem_set hx with hx2 | rfl
                  · exact hsrvs x hx2
                  · unfold srvGood
                    dsimp only
                    refine ⟨by omega, by omega, by simp; omega, ?_⟩
                    omega
                · rw [countP_concat_dep_isArr]
                  by_cases hT : e.time + exp_time lam d1 ≤ T
                  · rw [if_pos hT, countP_concat_arr_isArr, hrarr]
                  · rw [if_neg hT]
                    omega
                · intro f hf hfk
                  rcases List.mem_append.mp hf with hf2 | hf2
                  · by_cases hT : e.time + exp_time lam d1 ≤ T
                    · rw [if_pos hT] at hf2
                      rcases List.mem_append.mp hf2 with hf3 | hf3
                      · exact hvrest f hf3 hfk
                      · simp at hf3
                        rw [hf3] at hfk
                        simp at hfk
                    · rw [if_neg hT] at hf2
                      exact hvrest f hf2 hfk
                  · have hf3 := List.mem_singleton.mp hf2
                    subst hf3
                    exact ⟨choose probs r, by omega, rfl⟩
                · intro i srv' hget
                  rw [List.getElem?_set] at hget
                  rw [countP_concat_dep_depFor, countP_ite_arr_depFor, hrdep i]
                  by_cases hic : choose probs r = i
                  · rw [if_pos hic, if_pos hclt] at hget
                    injection hget with hget
                    subst hget
                    dsimp only
                    rw [← hic, hdc0]
                    simp
                  · rw [if_neg hic] at hget
                    rw [hdepc i srv' hget, if_neg hic, add_zero]
                · rw [sumInSystem_set _ hsome]
                  have htr : countArrE (tr ++ [⟨e, some (choose probs r), true⟩]) =
                      countArrE tr + 1 := by
                    unfold countArrE
                    rw [List.countP_append, List.countP_cons, List.countP_nil]
                    simp [hae]
                  rw [htr]
                  dsimp only
                  push_cast
                  omega
                · intro le hle
                  rw [List.getLast?_concat] at hle
                  injection hle with hle
                  subst hle
                  rfl
          · rw [if_neg hcap] at hd
            simp only [Option.some.injEq] at hd
            subst hd
            unfold SGood
            dsimp only
            refine ⟨hlen, fun x hx => hsrvs x hx, ?_, ?_, ?_, ?_, ?_⟩
            · by_cases hT : e.time + exp_time lam d1 ≤ T
              · rw [if_pos hT, countP_concat_arr_isArr, hrarr]
              · rw [if_neg hT]
                omega
            · intro f hf hfk
              by_cases hT : e.time + exp_time lam d1 ≤ T
              · rw [if_pos hT] at hf
                rcases List.mem_append.mp hf with hf2 | hf2
                · exact hvrest f hf2 hfk
                · have hf3 := List.mem_singleton.mp hf2
                  subst hf3
                  simp at hfk
              · rw [if_neg hT] at hf
                exact hvrest f hf hfk
            · intro i srv' hget
              rw [countP_ite_arr_depFor, hrdep i]
              exact hdepc i srv' hget
            · have htr : countArrE (tr ++ [⟨e, some (choose probs r), false⟩]) =
                  countArrE tr + 1 := by
                unfold countArrE
                rw [List.countP_append, List.countP_cons, List.countP_nil]
                simp [hae]
              rw [htr]
              push_cast
              omega
            · intro le hle
              rw [List.getLast?_concat] at hle
              injection hle with hle
              subst hle
              rfl
  | departure =>
    have hae : isArr e = false := by simp [isArr, hk]
    rw [hae, if_neg Bool.false_ne_true, zero_add] at harr2
    obtain ⟨idx, hidxM, hpay⟩ := hvalid e hmem.1 hk
    have hdfe : isDepFor idx e = true := by simp [isDepFor, isDep, hk, hpay]
    have hne : ∀ i, i ≠ idx → isDepFor i e = false := by
      intro i hi
      simp [isDepFor, isDep, hk, hpay]
      omega
    cases hsome : servers[idx]? with
    | none =>
      rw [List.getElem?_eq_none_iff] at hsome
      omega
    | some srv =>
      have hsmem : srv ∈ servers := by
        rw [List.getElem?_eq_some] at hsome
        obtain ⟨hlt2, hget⟩ := hsome
        exact hget ▸ List.getElem_mem hlt2
      obtain ⟨hs0, hsc, hsb, hsq⟩ := hsrvs srv hsmem
      have hcnt := hdepc idx srv hsome
      have h2 := popMin_countP ltS hpop (isDepFor idx)
      simp only at h2
      rw [hdfe, if_pos rfl] at h2
      have hbusy : srv.busy = true := by
        cases hb : srv.busy with
        | true => rfl
        | false => rw [hb, if_neg Bool.false_ne_true] at hcnt; omega
      rw [hbusy, if_pos rfl] at hcnt
      have hrdep0 : rest.countP (isDepFor idx) = 0 := by omega
      have hrdep : ∀ i, i ≠ idx → rest.countP (isDepFor i) = evs.countP (isDepFor i) := by
        intro i hi
        have h3 := popMin_countP ltS hpop (isDepFor i)
        simp only at h3
        rw [hne i hi, if_neg Bool.false_ne_true, zero_add] at h3
        exact h3.symm
      have hpos : 0 < srv.inSystem := hsb.mp hbusy
      simp only [sdispatch, hk, hpay] at hd
      rw [hsome] at hd
      dsimp only at hd
      cases hq : srv.queue with
      | nil =>
        rw [hq] at hd
        simp only [Option.some.injEq] at hd
        subst hd
        have hone : srv.inSystem = 1 := by
          rw [hq] at hsq
          simp at hsq
          omega
        unfold SGood
        dsimp only
        refine ⟨by simp [List.length_set, hlen], ?_, by omega, hvrest, ?_, ?_, ?_⟩
        · intro x hx
          rcases List.mem_or_eq_of_mem_set hx with hx2 | rfl
          · exact hsrvs x hx2
          · unfold srvGood
            dsimp only
            refine ⟨by omega, by omega, by simp; omega, ?_⟩
            simp
            omega
        · intro i srv' hget
          rw [List.getElem?_set] at hget
          by_cases hic : idx = i
          · rw [if_pos hic, if_pos (by omega)] at hget
            injection hget with hget
            subst hget
            dsimp only
            rw [← hic, hrdep0]
            simp
          · rw [if_neg hic] at hget
            rw [hrdep i (fun hcon => hic hcon.symm)]
            exact hdepc i srv' hget
        · rw [sumInSystem_set _ hsome]
          have htr : countArrE (tr ++ [⟨e, none, true⟩]) = countArrE tr := by
            unfold countArrE
            rw [List.countP_append, List.countP_cons, List.countP_nil]
            simp [hae]
          rw [htr]
          dsimp only
          push_cast
          omega
        · intro le hle
          rw [List.getLast?_concat] at hle
          injection hle with hle
          subst hle
          rfl
      | cons t0 q0 =>
        rw [hq] at hd
        dsimp only at hd
        cases drs with
        | nil => simp at hd
        | cons d dr =>
          simp only [Option.some.injEq] at hd
          subst hd
          have hlen2 : 2 ≤ srv.inSystem := by
            rw [hq] at hsq
            simp at hsq
            omega
          unfold SGood
          dsimp only
          refine ⟨by simp [List.length_set, hlen], ?_, ?_, ?_, ?_, ?_, ?_⟩
          · intro x hx
            rcases List.mem_or_eq_of_mem_set hx with hx2 | rfl
            · exact hsrvs x hx2
            · unfold srvGood
              dsimp only
              refine ⟨by omega, by omega, by simp [hbusy]; omega, ?_⟩
              rw [hq] at hsq
              simp at hsq ⊢
              omega
          · rw [countP_concat_dep_isArr]
            omega
          · intro f hf hfk
            rcases List.mem_append.mp hf with hf2 | hf2
            · exact hvrest f hf2 hfk
            · have hf3 := List.mem_singleton.mp hf2
              subst hf3
              exact ⟨idx, hidxM, rfl⟩
          · intro i srv' hget
            rw [List.getElem?_set] at hget
            rw [countP_concat_dep_depFor]
            by_cases hic : idx = i
            · rw [if_pos hic, if_pos (by omega)] at hget
              injection hget with hget
              subst hget
              dsimp only
              rw [← hic, hrdep0]
              simp [hbusy]
            · rw [if_neg hic] at hget
              rw [if_neg hic, add_zero, hrdep i (fun hcon => hic hcon.symm)]
              exact hdepc i srv' hget
          · rw [sumInSystem_set _ hsome]
            have htr : countArrE (tr ++ [⟨e, none, true⟩]) = countArrE tr := by
              unfold countArrE
              rw [List.countP_append, List.countP_cons, List.countP_nil]
              simp [hae]
            rw [htr]
            dsimp only
            push_cast
            omega
          · intro le hle
            rw [List.getLast?_concat] at hle
            injection hle with hle
            subst hle
            rfl

/-! ### run_sim reachability and loop lemmas -/

/-- States reachable from `s` by dispatch steps of the `run_sim` loop. -/
inductive SReach (T lam : ℚ) (probs : List ℚ) : SState → SState → Prop where
  | refl (s : SState) : SReach T lam probs s s
  | head {s s1 t : SState} {e : Event (Option ℕ)} {rest : List (Event (Option ℕ))}
      (hpop : popMin ltS s.events = some (e, rest))
      (hd : sdispatch T lam probs e rest s = some s1)
      (htail : SReach T lam probs s1 t) : SReach T lam probs s t

theorem sreach_good {T lam : ℚ} {probs : List ℚ} {M : ℕ} {s t : SState}
    (hg : SGood M s) (hr : SReach T lam probs s t) : SGood M t := by
  induction hr with
  | refl => exact hg
  | head hpop hd _ ih => exact ih (sdispatch_good hg hpop hd)

/-- The `run_sim` loop returns exactly when the event queue is empty, and the
final state is reachable by dispatch steps. -/
theorem sloop_reach {T lam : ℚ} {probs : List ℚ} :
    ∀ (fuel : ℕ) (s t : SState), sloop T lam probs fuel s = some t →
      SReach T lam probs s t ∧ t.events = [] := by
  intro fuel
  induction fuel with
  | zero => intro s t h; simp [sloop] at h
  | succ n ih =>
    intro s t h
    rw [sloop] at h
    cases hpop : popMin ltS s.events with
    | none =>
      rw [hpop] at h
      dsimp only at h
      simp only [Option.some.injEq] at h
      subst h
      have hnil : s.events = [] := by
        cases hevs : s.events with
        | nil => rfl
        | cons x xs => rw [hevs] at hpop; simp [popMin] at hpop
      exact ⟨SReach.refl s, hnil⟩
    | some er =>
      obtain ⟨e, rest⟩ := er
      rw [hpop] at h
      dsimp only at h
      cases hd : sdispatch T lam probs e rest s with
      | none => rw [hd] at h; simp at h
      | some s1 =>
        rw [hd] at h
        obtain ⟨hr, hemp⟩ := ih s1 t h
        exact ⟨SReach.head hpop hd hr, hemp⟩

/-- Every successful dispatch appends exactly one entry (for the dispatched
event) to the ghost trace. -/
theorem sdispatch_trace {T lam : ℚ} {probs : List ℚ} {e : Event (Option ℕ)}
    {rest : List (Event (Option ℕ))} {s s1 : SState}
    (hd : sdispatch T lam probs e rest s = some s1) :
    ∃ en, s1.trace = s.trace ++ [en] ∧ en.ev = e := by
  obtain ⟨servers, sv, dp, tw, ts, evs, now0, drs, tr⟩ := s
  cases hk : e.kind with
  | arrival =>
    simp only [sdispatch, hk] at hd
    cases drs with
    | nil => simp at hd
    | cons d1 dr1 =>
      dsimp only at hd
      cases dr1 with
      | nil => simp at hd
      | cons r dr2 =>
        dsimp only at hd
        cases hsome : servers[choose probs r]? with
        | none => rw [hsome] at hd; simp at hd
        | some srv =>
          rw [hsome] at hd
          dsimp only at hd
          by_cases hcap : srv.inSystem < srv.capacity
          · rw [if_pos hcap] at hd
            cases hbusy : srv.busy with
            | true =>
              rw [hbusy, if_pos rfl] at hd
              simp only [Option.some.injEq] at hd
              subst hd
              exact ⟨_, rfl, rfl⟩
            | false =>
              rw [hbusy, if_neg Bool.false_ne_true] at hd
              cases dr2 with
              | nil => simp at hd
              | cons d3 dr3 =>
                dsimp only at hd
                simp only [Option.some.injEq] at hd
                subst hd
                exact ⟨_, rfl, rfl⟩
          · rw [if_neg hcap] at hd
            simp only [Option.some.injEq] at hd
            subst hd
            exact ⟨_, rfl, rfl⟩
  | departure =>
    simp only [sdispatch, hk] at hd
    cases hp : e.payload with
    | none => rw [hp] at hd; simp at hd
    | some idx =>
      rw [hp] at hd
      dsimp only at hd
      cases hsome : servers[idx]? with
      | none => rw [hsome] at hd; simp at hd
      | some srv =>
        rw [hsome] at hd
        dsimp only at hd
        cases hq : srv.queue with
        | nil =>
          rw [hq] at hd
          simp only [Option.some.injEq] at hd
          subst hd
          exact ⟨_, rfl, rfl⟩
        | cons t0 q0 =>
          rw [hq] at hd
          dsimp only at hd
          cases drs with
          | nil => simp at hd
          | cons d dr =>
            simp only [Option.some.injEq] at hd
            subst hd
            exact ⟨_, rfl, rfl⟩

/-- The ghost trace only grows along reachability. -/
theorem sreach_trace {T lam : ℚ} {probs : List ℚ} {s t : SState}
    (hr : SReach T lam probs s t) : ∃ l, t.trace = s.trace ++ l := by
  induction hr with
  | refl => exact ⟨[], by simp⟩
  | head hpop hd _ ih =>
    obtain ⟨l, hl⟩ := ih
    obtain ⟨en, hen, _⟩ := sdispatch_trace hd
    exact ⟨en :: l, by rw [hl, hen, List.append_assoc]; rfl⟩

/-- A drained `run_sim` state has every server idle and empty. -/
theorem sgood_drained {M : ℕ} {t : SState} (hg : SGood M t) (he : t.events = []) :
    sumInSystem t.servers = 0 := by
  obtain ⟨hlen, hsrvs, _, _, hdepc, _, _⟩ := hg
  unfold sumInSystem
  apply List.sum_eq_zero
  intro z hz
  simp only [List.mem_map] at hz
  obtain ⟨srv, hmem, hz⟩ := hz
  subst hz
  obtain ⟨i, hi, hget⟩ := List.mem_iff_getElem.mp hmem
  have hget? : t.servers[i]? = some srv := by
    rw [List.getElem?_eq_getElem hi, hget]
  have hcnt := hdepc i srv hget?
  rw [he] at hcnt
  simp only [List.countP_nil] at hcnt
  have hbusy : srv.busy = false := by
    cases hb : srv.busy with
    | false => rfl
    | true => rw [hb, if_pos rfl] at hcnt; omega
  obtain ⟨hs0, _, hsb, _⟩ := hsrvs srv hmem
  have hnpos : ¬ 0 < srv.inSystem := by
    intro hpos
    rw [hsb.mpr hpos] at hbusy
    exact absurd hbusy (by simp)
  omega

/-- Shape of the initial `run_sim` state: empty trace, exactly the first
arrival in the queue. -/
theorem run_sim_init_shape {T : ℚ} {probs : List ℚ} {lam : ℚ} {queues : List ℤ}
    {mus : List ℚ} {draws : List ℚ} {s0 : SState}
    (h : run_sim_init T probs lam queues mus draws = some s0) :
    s0.trace = [] ∧ ∃ d dr, draws = d :: dr ∧
      s0.events = [Event.mk (exp_time lam d) EKind.arrival none] := by
  unfold run_sim_init at h
  split_ifs at h
  rcases draws with _ | ⟨d, dr⟩
  · simp at h
  · simp only [Option.some.injEq] at h
    subst h
    exact ⟨rfl, d, dr, rfl, rfl⟩

theorem run_sim_state_facts {T : ℚ} {probs : List ℚ} {lam : ℚ} {queues : List ℤ}
    {mus : List ℚ} {draws : List ℚ} {t : SState}
    (h : run_sim_state T probs lam queues mus draws = some t) :
    SGood probs.length t ∧ t.events = [] ∧ t.trace ≠ [] := by
  unfold run_sim_state at h
  cases hinit : run_sim_init T probs lam queues mus draws with
  | none => rw [hinit] at h; simp at h
  | some s0 =>
    rw [hinit, Option.some_bind] at h
    have hg0 := (run_sim_init_good hinit).1
    obtain ⟨hr, hemp⟩ := sloop_reach (draws.length + 2) s0 t h
    refine ⟨sreach_good hg0 hr, hemp, ?_⟩
    obtain ⟨htr0, d, dr, hdr, hevs0⟩ := run_sim_init_shape hinit
    cases hr with
    | refl =>
      rw [hevs0] at hemp
      simp at hemp
    | head hpop hd htail =>
      obtain ⟨en, hen, _⟩ := sdispatch_trace hd
      obtain ⟨l, hl⟩ := sreach_trace htail
      rw [hl, hen, htr0]
      simp

/-- The number of pending Departures equals the sum over all servers of their
per-server pending-Departure counts, when every Departure names a server. -/
theorem countDep_eq_sum {M : ℕ} : ∀ {l : List (Event (Option ℕ))},
    (∀ e ∈ l, e.kind = EKind.departure → ∃ i, i < M ∧ e.payload = some i) →
    l.countP isDep = ∑ i in Finset.range M, l.countP (isDepFor i) := by
  intro l
  induction l with
  | nil => simp
  | cons e es ih =>
    intro hv
    have hv' : ∀ f ∈ es, f.kind = EKind.departure → ∃ i, i < M ∧ f.payload = some i :=
      fun f hf => hv f (List.mem_cons_of_mem e hf)
    have hrec := ih hv'
    simp only [List.countP_cons]
    rw [Finset.sum_add_distrib, ← hrec]
    cases hk : e.kind with
    | arrival =>
      have h1 : isDep e = false := by simp [isDep, hk]
      have h2 : ∀ i, isDepFor i e = false := isDepFor_arrival hk
      simp [h1, h2]
    | departure =>
      obtain ⟨j, hj, hpay⟩ := hv e (List.mem_cons_self e es) hk
      have h1 : isDep e = true := by simp [isDep, hk]
      have h2 : ∀ i, isDepFor i e = if j = i then true else false := by
        intro i
        by_cases hij : j = i
        · simp [isDepFor, isDep, hk, hpay, hij]
        · simp [isDepFor, isDep, hk, hpay, hij]
      rw [h1]
      have h3 : ∑ i in Finset.range M, (if isDepFor i e then 1 else 0) = 1 := by
        have h4 : ∀ i ∈ Finset.range M,
            (if isDepFor i e then 1 else 0) = if j = i then 1 else 0 := by
          intro i _
          rw [h2 i]
          by_cases hij : j = i <;> simp [hij]
        rw [Finset.sum_congr rfl h4]
        rw [Finset.sum_ite_eq (Finset.range M) j fun _ => 1]
        simp [Finset.mem_range.mpr hj]
      rw [h3]
      simp

/-- Under the `run_sim` invariant the event queue holds at most `M + 1`
events: one arrival plus at most one departure per server. -/
theorem sgood_events_length {M : ℕ} {s : SState} (hg : SGood M s) :
    s.events.length ≤ M + 1 := by
  obtain ⟨hlen, hsrvs, harr, hvalid, hdepc, _, _⟩ := hg
  have hsplit := length_eq_countArr_add_countDep s.events
  have hsum := countDep_eq_sum (M := M) hvalid
  have hbound : ∑ i in Finset.range M, s.events.countP (isDepFor i) ≤
      ∑ _i in Finset.range M, 1 := by
    apply Finset.sum_le_sum
    intro i hi
    rw [Finset.mem_range] at hi
    have hilen : i < s.servers.length := by omega
    have hget := List.getElem?_eq_getElem hilen
    have := hdepc i s.servers[i] hget
    rw [this]
    by_cases hb : s.servers[i].busy = true <;> simp [hb]
  rw [Finset.sum_const, smul_eq_mul, mul_one] at hbound
  rw [Finset.card_range] at hbound
  omega

/-- Under the `run_mm1n` invariant the event queue holds at most two events:
the one pending arrival plus at most one departure. -/
theorem mgood_events_length {cap : ℤ} {s : MState} (hg : MGood cap s) :
    s.events.length ≤ 2 := by
  obtain ⟨_, _, _, _, harr, hdep, _⟩ := hg
  have hsplit := length_eq_countArr_add_countDep s.events
  by_cases hb : s.serverBusy = true
  · rw [hb, if_pos rfl] at hdep; omega
  · rw [if_neg hb] at hdep; omega

/-- In `run_sim`, the freshly computed next-arrival time is enqueued if and
only if it does not exceed the horizon `T` (simulator.py lines 58-60). -/
theorem sdispatch_next_arrival_iff {T lam : ℚ} {probs : List ℚ}
    {e : Event (Option ℕ)} {rest : List (Event (Option ℕ))} {s s1 : SState}
    {d1 : ℚ} {dr1 : List ℚ} (hrarr : rest.countP isArr = 0)
    (hk : e.kind = EKind.arrival)
    (hdr : s.draws = d1 :: dr1) (hd : sdispatch T lam probs e rest s = some s1) :
    Event.mk (e.time + exp_time lam d1) EKind.arrival none ∈ s1.events ↔
      e.time + exp_time lam d1 ≤ T := by
  have hnoarr : Event.mk (e.time + exp_time lam d1) EKind.arrival none ∉ rest := by
    intro hmem2
    have hz := List.countP_eq_zero.mp hrarr _ hmem2
    simp [isArr] at hz
  obtain ⟨servers, sv, dp, tw, ts, evs, now0, drs, tr⟩ := s
  simp only at hdr
  subst hdr
  simp only [sdispatch, hk] at hd
  cases dr1 with
  | nil => simp at hd
  | cons r dr2 =>
    dsimp only at hd
    cases hsome : servers[choose probs r]? with
    | none => rw [hsome] at hd; simp at hd
    | some srv =>
      rw [hsome] at hd
      dsimp only at hd
      by_cases hcap : srv.inSystem < srv.capacity
      · rw [if_pos hcap] at hd
        cases hbusy : srv.busy with
        | true =>
          rw [hbusy, if_pos rfl] at hd
          simp only [Option.some.injEq] at hd
          subst hd
          dsimp only
          constructor
          · intro hmem
            by_contra hT
            rw [if_neg hT] at hmem
            exact hnoarr hmem
          · intro hT
            rw [if_pos hT]
            exact List.mem_append_right _ (List.mem_singleton.mpr rfl)
        | false =>
          rw [hbusy, if_neg Bool.false_ne_true] at hd
          cases dr2 with
          | nil => simp at hd
          | cons d3 dr3 =>
            dsimp only at hd
            simp only [Option.some.injEq] at hd
            subst hd
            dsimp only
            constructor
            · intro hmem
              by_contra hT
              rw [if_neg hT] at hmem
              rcases List.mem_append.mp hmem with hmem2 | hmem2
              · exact hnoarr hmem2
              · have := List.mem_singleton.mp hmem2
                simp [Event.mk.injEq] at this
            · intro hT
              rw [if_pos hT]
              exact List.mem_append_left _ (List.mem_append_right _ (List.mem_singleton.mpr rfl))
      · rw [if_neg hcap] at hd
        simp only [Option.some.injEq] at hd
        subst hd
        dsimp only
        constructor
        · intro hmem
          by_contra hT
          rw [if_neg hT] at hmem
          exact hnoarr hmem
        · intro hT
          rw [if_pos hT]
          exact List.mem_append_right _ (List.mem_singleton.mpr rfl)

/-- Dispatching an Arrival in `run_sim` never changes `totalWait`: a customer
that enters service immediately contributes nothing, and a queued customer
contributes nothing yet. -/
theorem sdispatch_arrival_wait {T lam : ℚ} {probs : List ℚ} {e : Event (Option ℕ)}
    {rest : List (Event (Option ℕ))} {s s1 : SState} (hk : e.kind = EKind.arrival)
    (hd : sdispatch T lam probs e rest s = some s1) : s1.totalWait = s.totalWait := by
  obtain ⟨servers, sv, dp, tw, ts, evs, now0, drs, tr⟩ := s
  simp only [sdispatch, hk] at hd
  cases drs with
  | nil => simp at hd
  | cons d1 dr1 =>
    dsimp only at hd
    cases dr1 with
    | nil => simp at hd
    | cons r dr2 =>
      dsimp only at hd
      cases hsome : servers[choose probs r]? with
      | none => rw [hsome] at hd; simp at hd
      | some srv =>
        rw [hsome] at hd
        dsimp only at hd
        by_cases hcap : srv.inSystem < srv.capacity
        · rw [if_pos hcap] at hd
          cases hbusy : srv.busy with
          | true =>
            rw [hbusy, if_pos rfl] at hd
            simp only [Option.some.injEq] at hd
            subst hd
            rfl
          | false =>
            rw [hbusy, if_neg Bool.false_ne_true] at hd
            cases dr2 with
            | nil => simp at hd
            | cons d3 dr3 =>
              dsimp only at hd
              simp only [Option.some.injEq] at hd
              subst hd
              rfl
        · rw [if_neg hcap] at hd
          simp only [Option.some.injEq] at hd
          subst hd
          rfl

/-- In `run_sim`, when a Departure pulls the queued customer with arrival
timestamp `t0`, exactly the pure queueing delay `now - t0` (service start
minus arrival) is added to `totalWait`. -/
theorem sdispatch_departure_pull_wait {T lam : ℚ} {probs : List ℚ}
    {e : Event (Option ℕ)} {rest : List (Event (Option ℕ))} {s s1 : SState}
    {idx : ℕ} {srv : Server} {t0 : ℚ} {q0 : List ℚ} (hk : e.kind = EKind.departure)
    (hp : e.payload = some idx) (hsome : s.servers[idx]? = some srv)
    (hq : srv.queue = t0 :: q0) (hd : sdispatch T lam probs e rest s = some s1) :
    s1.totalWait = s.totalWait + (e.time - t0) := by
  obtain ⟨servers, sv, dp, tw, ts, evs, now0, drs, tr⟩ := s
  simp only at hsome
  simp only [sdispatch, hk, hp] at hd
  rw [hsome] at hd
  dsimp only at hd
  rw [hq] at hd
  dsimp only at hd
  cases drs with
  | nil => simp at hd
  | cons d dr =>
    simp only [Option.some.injEq] at hd
    subst hd
    rfl

/-- And when a Departure finds an empty wait list, `totalWait` is unchanged. -/
theorem sdispatch_departure_idle_wait {T lam : ℚ} {probs : List ℚ}
    {e : Event (Option ℕ)} {rest : List (Event (Option ℕ))} {s s1 : SState}
    {idx : ℕ} {srv : Server} (hk : e.kind = EKind.departure)
    (hp : e.payload = some idx) (hsome : s.servers[idx]? = some srv)
    (hq : srv.queue = []) (hd : sdispatch T lam probs e rest s = some s1) :
    s1.totalWait = s.totalWait := by
  obtain ⟨servers, sv, dp, tw, ts, evs, now0, drs, tr⟩ := s
  simp only at hsome
  simp only [sdispatch, hk, hp] at hd
  rw [hsome] at hd
  dsimp only at hd
  rw [hq] at hd
  simp only [Option.some.injEq] at hd
  subst hd
  rfl

theorem admissionsTo_concat (i : ℕ) (tr : List SEntry) (en : SEntry) :
    admissionsTo i (tr ++ [en]) = admissionsTo i tr +
      (if (isArr en.ev && decide (en.chosen = some i) && en.admitted) = true
        then 1 else 0) := by
  unfold admissionsTo
  rw [List.countP_append, List.countP_cons, List.countP_nil]
  omega

/-- A dispatch step never admits a customer to a zero-probability server at a
positive index: departures touch no admissions, and the router cannot pick
such a server. -/
theorem sdispatch_admissions {T lam : ℚ} {probs : List ℚ} {e : Event (Option ℕ)}
    {rest : List (Event (Option ℕ))} {s s1 : SState} {i : ℕ} (hi : i ≠ 0)
    (hp : probs[i]? = some 0) (hd : sdispatch T lam probs e rest s = some s1) :
    admissionsTo i s1.trace = admissionsTo i s.trace := by
  obtain ⟨servers, sv, dp, tw, ts, evs, now0, drs, tr⟩ := s
  cases hk : e.kind with
  | arrival =>
    simp only [sdispatch, hk] at hd
    cases drs with
    | nil => simp at hd
    | cons d1 dr1 =>
      dsimp only at hd
      cases dr1 with
      | nil => simp at hd
      | cons r dr2 =>
        dsimp only at hd
        have hnei : decide ((some (choose probs r) : Option ℕ) = some i) = false := by
          simp
          exact choose_ne_zero_prob_pos probs r i hi hp
        cases hsome : servers[choose probs r]? with
        | none => rw [hsome] at hd; simp at hd
        | some srv =>
          rw [hsome] at hd
          dsimp only at hd
          by_cases hcap : srv.inSystem < srv.capacity
          · rw [if_pos hcap] at hd
            cases hbusy : srv.busy with
            | true =>
              rw [hbusy, if_pos rfl] at hd
              simp only [Option.some.injEq] at hd
              subst hd
              rw [admissionsTo_concat]
              simp only
              rw [hnei]
              simp
            | false =>
              rw [hbusy, if_neg Bool.false_ne_true] at hd
              cases dr2 with
              | nil => simp at hd
              | cons d3 dr3 =>
                dsimp only at hd
                simp only [Option.some.injEq] at hd
                subst hd
                rw [admissionsTo_concat]
                simp only
                rw [hnei]
                simp
          · rw [if_neg hcap] at hd
            simp only [Option.some.injEq] at hd
            subst hd
            rw [admissionsTo_concat]
            simp only
            rw [hnei]
            simp
  | departure =>
    simp only [sdispatch, hk] at hd
    cases hpay : e.payload with
    | none => rw [hpay] at hd; simp at hd
    | some idx =>
      rw [hpay] at hd
      dsimp only at hd
      cases hsome : servers[idx]? with
      | none => rw [hsome] at hd; simp at hd
      | some srv =>
        rw [hsome] at hd
        dsimp only at hd
        cases hq : srv.queue with
        | nil =>
          rw [hq] at hd
          simp only [Option.some.injEq] at hd
          subst hd
          rw [admissionsTo_concat]
          simp
        | cons t0 q0 =>
          rw [hq] at hd
          dsimp only at hd
          cases drs with
          | nil => simp at hd
          | cons d dr =>
            simp only [Option.some.injEq] at hd
            subst hd
            rw [admissionsTo_concat]
            simp

theorem sreach_admissions {T lam : ℚ} {probs : List ℚ} {s t : SState} {i : ℕ}
    (hi : i ≠ 0) (hp : probs[i]? = some 0) (hr : SReach T lam probs s t) :
    admissionsTo i t.trace = admissionsTo i s.trace := by
  induction hr with
  | refl => rfl
  | head hpop hd _ ih => rw [ih, sdispatch_admissions hi hp hd]

/-- Run-level: in every completed `run_sim` run, a zero-probability server at
a positive index receives zero admissions. -/
theorem run_sim_admissions {T : ℚ} {probs : List ℚ} {lam : ℚ} {queues : List ℤ}
    {mus : List ℚ} {draws : List ℚ} {t : SState} {i : ℕ}
    (h : run_sim_state T probs lam queues mus draws = some t)
    (hi : i ≠ 0) (hp : probs[i]? = some 0) : admissionsTo i t.trace = 0 := by
  unfold run_sim_state at h
  cases hinit : run_sim_init T probs lam queues mus draws with
  | none => rw [hinit] at h; simp at h
  | some s0 =>
    rw [hinit, Option.some_bind] at h
    obtain ⟨hr, _⟩ := sloop_reach (draws.length + 2) s0 t h
    rw [sreach_admissions hi hp hr]
    obtain ⟨htr0, _⟩ := run_sim_init_shape hinit
    rw [htr0]
    rfl

/-! ### Claim theorems -/

/-- C1 counterexample: with M = 1, probability [1.0], queueCapacity 0 (so
run_mm1n capacity 0 + 1 = 1), arrivalRate 1, serviceRate 1, horizon 1 and the
same seeded stream, run_mm1n returns (served, dropped, averageWait, endTime) =
(0, 0, 0, 1) while run_sim returns (served, dropped, endTime, averageWait,
averageService) = (1, 0, 2, 0, 1): served (1 vs 0) and endTime (2 vs 1)
differ, refuting the claimed equality of results. -/
theorem C1_counterexample :
    run_mm1n_seeded (fun _ => [1, 1, 1/2, 1]) [] (some 0) 1 1 (0 + 1) 1 =
        some (0, 0, 0, 1) ∧
      run_sim_seeded (fun _ => [1, 1, 1/2, 1]) [] (some 0) 1 [1] 1 [0] [1] =
        some (1, 0, 2, 0, 1) ∧
      ¬((1 : ℕ) = 0 ∧ (2 : ℚ) = 1) := by
  refine ⟨?_, ?_, by norm_num⟩
  · norm_num [run_mm1n_seeded, seedDraws, run_mm1n, run_mm1n_state, run_mm1n_init, mloop,
      mdispatch, popMin, selectMin, exp_time, ltM, eventLt, payLtM, kindRank]
  · norm_num [run_sim_seeded, seedDraws, run_sim, run_sim_state, run_sim_init, sloop,
      sdispatch, popMin, selectMin, exp_time, ltS, eventLt, payLtS, kindRank, choose, chooseAux]

/-- C1 amended: with M = 1 and routing probability [1.0], the router always
selects server 0 for every uniform draw, so run_sim degenerates to a
single-server engine; the result tuples however need not match run_mm1n for
identical parameters and seed, because the two engines use different horizon
policies (hard cutoff vs drain) and consume the shared random stream
differently (run_sim draws an extra routing uniform per arrival). -/
theorem C1_router_degenerate (r : ℚ) : choose [1] r = 0 := choose_single r

/-- C2 counterexample: in run_mm1n (lam = mu = 1, capacity 1, horizon 10,
draws [1, 100, 2]) exactly one customer is served; it arrived at time 1 while
the server was idle, entered service immediately (never queued), yet
averageWait = 2 — its service time — because mm1n.py adds `now - arrival_time`
at the departure, so an immediately-served customer contributes its service
time to totalWait, not 0. -/
theorem C2_counterexample :
    run_mm1n 1 1 1 10 [1, 100, 2] = some (1, 0, 2, 10) ∧ (2 : ℚ) ≠ 0 := by
  refine ⟨?_, by norm_num⟩
  norm_num [run_mm1n, run_mm1n_state, run_mm1n_init, mloop,
    mdispatch, popMin, selectMin, exp_time, ltM, eventLt, payLtM, kindRank]

/-- C2 amended: in run_sim an Arrival dispatch never changes totalWait (an
immediately-served customer contributes exactly 0 while still counting in the
served denominator), and totalWait accumulates, for each queued customer pulled
at a Departure, exactly service-start time minus its arrival timestamp; in
run_mm1n, by contrast, each Departure adds departure time minus arrival
timestamp — the full sojourn including service — so there an immediately-served
customer contributes its service time rather than 0. -/
theorem C2_wait_accounting :
    (∀ (T lam : ℚ) (probs : List ℚ) (e : Event (Option ℕ))
        (rest : List (Event (Option ℕ))) (s s1 : SState),
      e.kind = EKind.arrival → sdispatch T lam probs e rest s = some s1 →
        s1.totalWait = s.totalWait) ∧
    (∀ (T lam : ℚ) (probs : List ℚ) (e : Event (Option ℕ))
        (rest : List (Event (Option ℕ))) (s s1 : SState) (idx : ℕ) (srv : Server)
        (t0 : ℚ) (q0 : List ℚ),
      e.kind = EKind.departure → e.payload = some idx → s.servers[idx]? = some srv →
        srv.queue = t0 :: q0 → sdispatch T lam probs e rest s = some s1 →
          s1.totalWait = s.totalWait + (e.time - t0)) ∧
    (∀ (lam mu : ℚ) (cap : ℤ) (e : Event (Option ℚ))
        (rest : List (Event (Option ℚ))) (s s1 : MState) (a : ℚ),
      e.kind = EKind.departure → e.payload = some a →
        mdispatch lam mu cap e rest s = some s1 →
          s1.totalWait = s.totalWait + (e.time - a)) :=
  ⟨fun _ _ _ _ _ _ _ hk hd => sdispatch_arrival_wait hk hd,
   fun _ _ _ _ _ _ _ _ _ _ _ hk hp hsome hq hd =>
     sdispatch_departure_pull_wait hk hp hsome hq hd,
   fun _ _ _ _ _ _ _ _ hk hp hd => mdispatch_departure_wait hk hp hd⟩

/-- C2 witness: the three accounting facts at concrete dispatches. -/
theorem C2_witness :
    (SState.mk [Server.mk [] true 1 1 1] 0 0 0 1
        [Event.mk 2 EKind.departure (some 0)] 1 []
        [SEntry.mk (Event.mk 1 EKind.arrival none) (some 0) true]).totalWait =
      (SState.mk [Server.mk [] false 1 1 0] 0 0 0 0 [] 0 [1, 0, 1] []).totalWait ∧
    (SState.mk [Server.mk [] true 1 1 1] 1 0 2 1
        [Event.mk 4 EKind.departure (some 0)] 3 []
        [SEntry.mk (Event.mk 3 EKind.departure (some 0)) none true]).totalWait =
      (SState.mk [Server.mk [1] true 1 1 2] 0 0 0 0 [] 0 [1] []).totalWait + (3 - 1) ∧
    (MState.mk 2 false 0 [] 1 0 1 [] []
        [Event.mk 2 EKind.departure (some 1)]).totalWait =
      (MState.mk 0 true 1 [] 0 0 0 [] [] []).totalWait + (2 - 1) := by
  refine ⟨?_, ?_, ?_⟩
  · exact C2_wait_accounting.1 1 1 [1] (Event.mk 1 EKind.arrival none) []
      (SState.mk [Server.mk [] false 1 1 0] 0 0 0 0 [] 0 [1, 0, 1] []) _ rfl
      (by norm_num [sdispatch, exp_time, choose, chooseAux])
  · exact C2_wait_accounting.2.1 1 1 [1] (Event.mk 3 EKind.departure (some 0)) []
      (SState.mk [Server.mk [1] true 1 1 2] 0 0 0 0 [] 0 [1] []) _ 0
      (Server.mk [1] true 1 1 2) 1 [] rfl rfl rfl rfl
      (by norm_num [sdispatch, exp_time])
  · exact C2_wait_accounting.2.2 1 1 1 (Event.mk 2 EKind.departure (some 1)) []
      (MState.mk 0 true 1 [] 0 0 0 [] [] []) _ 1 rfl rfl
      (by norm_num [mdispatch, exp_time])

/-- C3: the hard-cutoff policy of run_mm1n. (i) Every completed run returns
endTime equal to the horizon. (ii) The loop, on popping any event (Arrival or
Departure) with time beyond the horizon, terminates at once, discarding that
event and all later ones, with now set to the horizon. (iii) Every dispatched
Arrival schedules the next arrival unconditionally, even if its time lands
past the horizon. -/
theorem C3_hard_cutoff :
    (∀ (lam mu : ℚ) (cap : ℤ) (horizon : ℚ) (draws : List ℚ) (r : ℕ × ℕ × ℚ × ℚ),
      run_mm1n lam mu cap horizon draws = some r → r.2.2.2 = horizon) ∧
    (∀ (lam mu : ℚ) (cap : ℤ) (horizon : ℚ) (fuel : ℕ) (s : MState)
        (e : Event (Option ℚ)) (rest : List (Event (Option ℚ))),
      popMin ltM s.events = some (e, rest) → horizon < e.time →
        mloop lam mu cap horizon (fuel + 1) s =
          some { s with now := horizon, events := rest }) ∧
    (∀ (lam mu : ℚ) (cap : ℤ) (e : Event (Option ℚ))
        (rest : List (Event (Option ℚ))) (s s1 : MState) (d1 : ℚ) (dr1 : List ℚ),
      e.kind = EKind.arrival → s.draws = d1 :: dr1 →
        mdispatch lam mu cap e rest s = some s1 →
          Event.mk (e.time + exp_time lam d1) EKind.arrival none ∈ s1.events) := by
  refine ⟨?_, ?_, ?_⟩
  · intro lam mu cap horizon draws r h
    unfold run_mm1n at h
    rw [Option.map_eq_some'] at h
    obtain ⟨t, ht, hr⟩ := h
    rw [← hr]
    exact (run_mm1n_state_final ht).1
  · intro lam mu cap horizon fuel s e rest hpop hhor
    exact mloop_break hpop hhor
  · intro lam mu cap e rest s s1 d1 dr1 hk hdr hd
    exact mdispatch_arrival_schedules hk hdr hd

/-- C3 witness: the three cutoff facts at concrete inputs. -/
theorem C3_witness :
    ((0, 0, 0, (1 : ℚ)) : ℕ × ℕ × ℚ × ℚ).2.2.2 = 1 ∧
    mloop 1 1 1 1 1 (MState.mk 0 false 0 [] 0 0 0
        [Event.mk 2 EKind.arrival none] [] []) =
      some (MState.mk 1 false 0 [] 0 0 0 [] [] []) ∧
    Event.mk (1 + exp_time 1 1) EKind.arrival none ∈
      (MState.mk 1 true 1 [] 0 0 0
        [Event.mk (1 + exp_time 1 1) EKind.arrival none,
         Event.mk (1 + exp_time 1 1) EKind.departure (some 1)] []
        [Event.mk 1 EKind.arrival none]).events := by
  refine ⟨?_, ?_, ?_⟩
  · exact C3_hard_cutoff.1 1 1 1 1 [1, 1, 1/2, 1] (0, 0, 0, 1)
      (by norm_num [run_mm1n, run_mm1n_state, run_mm1n_init, mloop,
        mdispatch, popMin, selectMin, exp_time, ltM, eventLt, payLtM, kindRank])
  · exact C3_hard_cutoff.2.1 1 1 1 1 0 (MState.mk 0 false 0 [] 0 0 0
        [Event.mk 2 EKind.arrival none] [] [])
      (Event.mk 2 EKind.arrival none) [] rfl (by norm_num)
  · exact C3_hard_cutoff.2.2 1 1 1 (Event.mk 1 EKind.arrival none) []
      (MState.mk 0 false 0 [] 0 0 0 [] [1, 1] []) _ 1 [1] rfl rfl
      (by norm_num [mdispatch, exp_time])

/-- C4: the soft/drain-cutoff policy of run_sim. (i) A newly computed
next-arrival time is enqueued if and only if it is at most the horizon T
(stated for any dispatch whose remaining queue holds no other arrival, which
the loop invariant guarantees). (ii) Every completed run ends with an empty
event queue: after arrivals stop, all queued arrivals and pending departures
are dispatched. (iii) The final now — returned by run_sim as endTime — equals
the time of the last dispatched event, which may exceed T. -/
theorem C4_drain_cutoff :
    (∀ (T lam : ℚ) (probs : List ℚ) (e : Event (Option ℕ))
        (rest : List (Event (Option ℕ))) (s s1 : SState) (d1 : ℚ) (dr1 : List ℚ),
      rest.countP isArr = 0 → e.kind = EKind.arrival → s.draws = d1 :: dr1 →
        sdispatch T lam probs e rest s = some s1 →
          (Event.mk (e.time + exp_time lam d1) EKind.arrival none ∈ s1.events ↔
            e.time + exp_time lam d1 ≤ T)) ∧
    (∀ (T : ℚ) (probs : List ℚ) (lam : ℚ) (queues : List ℤ) (mus : List ℚ)
        (draws : List ℚ) (t : SState),
      run_sim_state T probs lam queues mus draws = some t → t.events = []) ∧
    (∀ (T : ℚ) (probs : List ℚ) (lam : ℚ) (queues : List ℤ) (mus : List ℚ)
        (draws : List ℚ) (t : SState),
      run_sim_state T probs lam queues mus draws = some t →
        ∃ le, t.trace.getLast? = some le ∧ t.now = le.ev.time) := by
  refine ⟨?_, ?_, ?_⟩
  · intro T lam probs e rest s s1 d1 dr1 hrarr hk hdr hd
    exact sdispatch_next_arrival_iff hrarr hk hdr hd
  · intro T probs lam queues mus draws t h
    exact (run_sim_state_facts h).2.1
  · intro T probs lam queues mus draws t h
    obtain ⟨hg, _, htr⟩ := run_sim_state_facts h
    cases hle : t.trace.getLast? with
    | none =>
      rw [List.getLast?_eq_none_iff] at hle
      exact absurd hle htr
    | some le => exact ⟨le, rfl, hg.2.2.2.2.2.2 le hle⟩

/-- C4 witness: the drain facts at a concrete completed run and dispatch. -/
theorem C4_witness :
    (Event.mk (1 + exp_time 1 1) EKind.arrival none ∈
        (SState.mk [Server.mk [] true 1 1 1] 0 0 0 1
          [Event.mk 2 EKind.departure (some 0)] 1 []
          [SEntry.mk (Event.mk 1 EKind.arrival none) (some 0) true]).events ↔
      1 + exp_time 1 1 ≤ 1) ∧
    (SState.mk [Server.mk [] false 1 1 0] 1 0 0 1 [] 2 []
        [SEntry.mk (Event.mk 1 EKind.arrival none) (some 0) true,
         SEntry.mk (Event.mk 2 EKind.departure (some 0)) none true]).events = [] ∧
    ∃ le, (SState.mk [Server.mk [] false 1 1 0] 1 0 0 1 [] 2 []
        [SEntry.mk (Event.mk 1 EKind.arrival none) (some 0) true,
         SEntry.mk (Event.mk 2 EKind.departure (some 0)) none true]).trace.getLast? =
          some le ∧
      (SState.mk [Server.mk [] false 1 1 0] 1 0 0 1 [] 2 []
        [SEntry.mk (Event.mk 1 EKind.arrival none) (some 0) true,
         SEntry.mk (Event.mk 2 EKind.departure (some 0)) none true]).now = le.ev.time := by
  refine ⟨?_, ?_, ?_⟩
  · exact C4_drain_cutoff.1 1 1 [1] (Event.mk 1 EKind.arrival none) []
      (SState.mk [Server.mk [] false 1 1 0] 0 0 0 0 [] 0 [1, 0, 1] []) _ 1 [0, 1]
      rfl rfl rfl (by norm_num [sdispatch, exp_time, choose, chooseAux])
  · exact C4_drain_cutoff.2.1 1 [1] 1 [0] [1] [1, 1, 1/2, 1] _
      (by norm_num [run_sim_state, run_sim_init, sloop, sdispatch, popMin, selectMin,
        exp_time, ltS, eventLt, payLtS, kindRank, choose, chooseAux])
  · exact C4_drain_cutoff.2.2 1 [1] 1 [0] [1] [1, 1, 1/2, 1] _
      (by norm_num [run_sim_state, run_sim_init, sloop, sdispatch, popMin, selectMin,
        exp_time, ltS, eventLt, payLtS, kindRank, choose, chooseAux])

/-- C5: in both engines, at every state reachable by dispatch steps from the
initial state, every server satisfies 0 ≤ inSystem ≤ capacity,
busy ⟺ inSystem > 0, and the FIFO waiting list holds exactly
max(0, inSystem - 1) customers. -/
theorem C5_server_invariants :
    (∀ (lam mu : ℚ) (cap : ℤ) (horizon : ℚ) (draws : List ℚ) (s0 t : MState),
      run_mm1n_init lam mu cap horizon draws = some s0 → MReach lam mu cap s0 t →
        0 ≤ t.inSystem ∧ t.inSystem ≤ cap ∧ (t.serverBusy = true ↔ 0 < t.inSystem) ∧
          (t.queue.length : ℤ) = max 0 (t.inSystem - 1)) ∧
    (∀ (T : ℚ) (probs : List ℚ) (lam : ℚ) (queues : List ℤ) (mus : List ℚ)
        (draws : List ℚ) (s0 t : SState),
      run_sim_init T probs lam queues mus draws = some s0 → SReach T lam probs s0 t →
        ∀ srv ∈ t.servers, 0 ≤ srv.inSystem ∧ srv.inSystem ≤ srv.capacity ∧
          (srv.busy = true ↔ 0 < srv.inSystem) ∧
          (srv.queue.length : ℤ) = max 0 (srv.inSystem - 1)) := by
  constructor
  · intro lam mu cap horizon draws s0 t hinit hr
    have hg := mreach_good (run_mm1n_init_good hinit).1 hr
    exact ⟨hg.1, hg.2.1, hg.2.2.1, hg.2.2.2.1⟩
  · intro T probs lam queues mus draws s0 t hinit hr srv hsrv
    have hg := sreach_good (run_sim_init_good hinit).1 hr
    exact hg.2.1 srv hsrv

/-- C5 witness: the invariants at the (reachable) initial states. -/
theorem C5_witness :
    (0 ≤ (MState.mk 0 false 0 [] 0 0 0 [Event.mk 1 EKind.arrival none] [] []).inSystem ∧
      (MState.mk 0 false 0 [] 0 0 0 [Event.mk 1 EKind.arrival none] [] []).inSystem ≤ 1 ∧
      ((MState.mk 0 false 0 [] 0 0 0 [Event.mk 1 EKind.arrival none] [] []).serverBusy = true ↔
        0 < (MState.mk 0 false 0 [] 0 0 0 [Event.mk 1 EKind.arrival none] [] []).inSystem) ∧
      (((MState.mk 0 false 0 [] 0 0 0 [Event.mk 1 EKind.arrival none] [] []).queue.length : ℤ) =
        max 0 ((MState.mk 0 false 0 [] 0 0 0 [Event.mk 1 EKind.arrival none] [] []).inSystem - 1))) ∧
    ∀ srv ∈ (SState.mk [Server.mk [] false 1 1 0] 0 0 0 0
        [Event.mk 1 EKind.arrival none] 0 [] []).servers,
      0 ≤ srv.inSystem ∧ srv.inSystem ≤ srv.capacity ∧
        (srv.busy = true ↔ 0 < srv.inSystem) ∧
        (srv.queue.length : ℤ) = max 0 (srv.inSystem - 1) := by
  constructor
  · exact C5_server_invariants.1 1 1 1 1 [1] _ _
      (by norm_num [run_mm1n_init, exp_time]) (MReach.refl _)
  · exact C5_server_invariants.2 1 [1] 1 [0] [1] [1] _ _
      (by norm_num [run_sim_init, exp_time]) (SReach.refl _)

/-- C6 counterexample: run_mm1n with lam = mu = 1, capacity 1, horizon 2 and
draws [1, 100, 2] dispatches one Arrival (admitted at time 1) and then hits
the hard cutoff before its Departure (scheduled at time 3), so at termination
served + dropped = 0 while one Arrival was dispatched: served + dropped ≥
arrivals dispatched fails (the customer is still in the system). -/
theorem C6_counterexample :
    (run_mm1n_state 1 1 1 2 [1, 100, 2]).map
        (fun t => ((t.served : ℤ) + t.dropped, t.trace.countP isArr, t.inSystem)) =
      some (0, 1, 1) ∧ ¬((0 : ℤ) ≥ 1) := by
  refine ⟨?_, by norm_num⟩
  norm_num [run_mm1n_state, run_mm1n_init, mloop,
    mdispatch, popMin, selectMin, exp_time, ltM, eventLt, payLtM, kindRank, isArr]

/-- C6 amended: conservation holds as served + dropped + (customers still in
the system) = Arrivals dispatched, so served + dropped is at most (not at
least) the number of dispatched Arrivals; no admitted arrival vanishes — each
is either counted in served or still held in a server's state. In run_sim the
run drains completely, so there served + dropped equals the number of
dispatched Arrivals exactly. -/
theorem C6_conservation :
    (∀ (lam mu : ℚ) (cap : ℤ) (horizon : ℚ) (draws : List ℚ) (t : MState),
      run_mm1n_state lam mu cap horizon draws = some t →
        (t.served : ℤ) + t.dropped + t.inSystem = t.trace.countP isArr ∧
          0 ≤ t.inSystem) ∧
    (∀ (T : ℚ) (probs : List ℚ) (lam : ℚ) (queues : List ℤ) (mus : List ℚ)
        (draws : List ℚ) (t : SState),
      run_sim_state T probs lam queues mus draws = some t →
        (t.served : ℤ) + t.dropped = countArrE t.trace) := by
  constructor
  · intro lam mu cap horizon draws t h
    obtain ⟨_, hcons, hpos, _⟩ := run_mm1n_state_final h
    exact ⟨hcons, hpos⟩
  · intro T probs lam queues mus draws t h
    obtain ⟨hg, hemp, _⟩ := run_sim_state_facts h
    have hzero := sgood_drained hg hemp
    have hcons := hg.2.2.2.2.2.1
    omega

/-- C6 witness: conservation at two concrete completed runs. -/
theorem C6_witness :
    (((0 : ℕ) : ℤ) + (0 : ℕ) + (1 : ℤ) =
        ([Event.mk 1 EKind.arrival none] : List (Event (Option ℚ))).countP isArr ∧
      (0 : ℤ) ≤ 1) ∧
    ((1 : ℕ) : ℤ) + (0 : ℕ) =
      countArrE [SEntry.mk (Event.mk 1 EKind.arrival none) (some 0) true,
        SEntry.mk (Event.mk 2 EKind.departure (some 0)) none true] := by
  constructor
  · have h := C6_conservation.1 1 1 1 2 [1, 100, 2]
      (MState.mk 2 true 1 [] 0 0 0 [Event.mk 101 EKind.arrival none] []
        [Event.mk 1 EKind.arrival none])
      (by norm_num [run_mm1n_state, run_mm1n_init, mloop,
        mdispatch, popMin, selectMin, exp_time, ltM, eventLt, payLtM, kindRank])
    simpa using h
  · have h := C6_conservation.2 1 [1] 1 [0] [1] [1, 1, 1/2, 1]
      (SState.mk [Server.mk [] false 1 1 0] 1 0 0 1 [] 2 []
        [SEntry.mk (Event.mk 1 EKind.arrival none) (some 0) true,
         SEntry.mk (Event.mk 2 EKind.departure (some 0)) none true])
      (by norm_num [run_sim_state, run_sim_init, sloop, sdispatch, popMin, selectMin,
        exp_time, ltS, eventLt, payLtS, kindRank, choose, chooseAux])
    simpa using h

/-- C7 counterexample: the order of two same-time same-kind events does depend
on comparing their payloads — at time 0, two Departures compare by server
index, and swapping the payloads flips the comparison — refuting the claim
that ties are resolved by an order that never depends on event payloads. -/
theorem C7_counterexample :
    ¬ (∀ p q p' q' : Option ℕ,
        eventLt payLtS (Event.mk 0 EKind.departure p) (Event.mk 0 EKind.departure q) =
          eventLt payLtS (Event.mk 0 EKind.departure p') (Event.mk 0 EKind.departure q')) := by
  intro h
  have h1 := h (some 0) (some 1) (some 1) (some 0)
  norm_num [eventLt, payLtS, kindRank] at h1

/-- C7 amended: popping is total and returns a minimal event under the
lexicographic (time, kindRank, payload) order, so events dispatch in ascending
(time, kindRank) order with Arrivals (rank 0) before Departures (rank 1) on a
time tie; a remaining tie (same time and kind) is resolved by comparing the
payloads (which is total on reachable queues: arrivals all carry none,
departures carry comparable indices/timestamps), not by a payload-independent
order. -/
theorem C7_event_order :
    (∀ (l : List (Event (Option ℕ))) (e : Event (Option ℕ))
        (rest : List (Event (Option ℕ))),
      popMin ltS l = some (e, rest) →
        List.Perm (e :: rest) l ∧ ∀ f ∈ rest, ltS f e = false) ∧
    (∀ l : List (Event (Option ℕ)), l ≠ [] → ∃ x, popMin ltS l = some x) ∧
    (∀ (l : List (Event (Option ℕ))) (e : Event (Option ℕ))
        (rest : List (Event (Option ℕ))) (f : Event (Option ℕ)),
      popMin ltS l = some (e, rest) → f ∈ rest → f.time = e.time →
        f.kind = EKind.arrival → e.kind = EKind.arrival) ∧
    (∀ (t : ℚ) (i j : ℕ), i < j →
      ltS (Event.mk t EKind.departure (some i)) (Event.mk t EKind.departure (some j)) =
        true) ∧
    (∀ (l : List (Event (Option ℚ))) (e : Event (Option ℚ))
        (rest : List (Event (Option ℚ))),
      popMin ltM l = some (e, rest) →
        List.Perm (e :: rest) l ∧ ∀ f ∈ rest, ltM f e = false) ∧
    (∀ (t a b : ℚ), a < b →
      ltM (Event.mk t EKind.departure (some a)) (Event.mk t EKind.departure (some b)) =
        true) := by
  refine ⟨?_, ?_, ?_, ?_, ?_, ?_⟩
  · intro l e rest hpop
    exact ⟨popMin_perm ltS hpop, popMin_min ltS ltS_trans ltS_asymm hpop⟩
  · intro l hl
    exact popMin_ne_nil ltS hl
  · intro l e rest f hpop hf htime hkf
    by_contra hke
    have hek : e.kind = EKind.departure := by
      cases hk : e.kind with
      | arrival => exact absurd hk hke
      | departure => rfl
    have hlt : ltS f e = true := by
      unfold ltS
      rw [eventLt_iff]
      exact Or.inr ⟨htime, Or.inl (by simp [hkf, hek, kindRank])⟩
    have hff := popMin_min ltS ltS_trans ltS_asymm hpop f hf
    rw [hlt] at hff
    simp at hff
  · intro t i j hij
    unfold ltS
    rw [eventLt_iff]
    exact Or.inr ⟨rfl, Or.inr ⟨rfl, by simp [payLtS, hij]⟩⟩
  · intro l e rest hpop
    exact ⟨popMin_perm ltM hpop, popMin_min ltM ltM_trans ltM_asymm hpop⟩
  · intro t a b hab
    unfold ltM
    rw [eventLt_iff]
    exact Or.inr ⟨rfl, Or.inr ⟨rfl, by simp [payLtM, hab]⟩⟩

/-- C7 witness: pop of a concrete queue with a time tie. -/
theorem C7_witness :
    (List.Perm (Event.mk 1 EKind.arrival none ::
        [Event.mk 1 EKind.departure (some 0)])
        [Event.mk 1 EKind.departure (some 0), Event.mk 1 EKind.arrival none] ∧
      ∀ f ∈ [Event.mk 1 EKind.departure (some 0)],
        ltS f (Event.mk 1 EKind.arrival none) = false) ∧
    ltS (Event.mk 2 EKind.departure (some 0)) (Event.mk 2 EKind.departure (some 1)) =
      true := by
  constructor
  · exact C7_event_order.1 [Event.mk 1 EKind.departure (some 0),
      Event.mk 1 EKind.arrival none] (Event.mk 1 EKind.arrival none)
      [Event.mk 1 EKind.departure (some 0)]
      (by norm_num [popMin, selectMin, ltS, eventLt, payLtS, kindRank])
  · exact C7_event_order.2.2.2.1 2 0 1 (by norm_num)

/-- C8: determinism — with a supplied seed, the pre-seeding state of the
global stream is irrelevant: two runs of the same engine with the same seed
and configuration return identical result tuples (bit-identical in the
rational model). -/
theorem C8_determinism (seedStream : ℤ → List ℚ) (g1 g2 : List ℚ) (sd : ℤ)
    (lam mu : ℚ) (cap : ℤ) (horizon T : ℚ) (probs : List ℚ) (queues : List ℤ)
    (mus : List ℚ) :
    run_mm1n_seeded seedStream g1 (some sd) lam mu cap horizon =
        run_mm1n_seeded seedStream g2 (some sd) lam mu cap horizon ∧
      run_sim_seeded seedStream g1 (some sd) T probs lam queues mus =
        run_sim_seeded seedStream g2 (some sd) T probs lam queues mus :=
  ⟨rfl, rfl⟩

/-- C9 counterexample: with probabilities [0, 1 - 1e-9] (accepted by the
validation, since the sum is within the 1e-9 tolerance) and a uniform draw
r = 1 - 1e-10 ≥ sum(probs), the routing scan falls through and the default
chosen = 0 routes the customer to server 0 — whose probability is 0 — so that
server receives an admission, refuting the claim. -/
theorem C9_counterexample :
    (run_sim_state 1 [0, 1 - 1/1000000000] 1 [0, 0] [1, 1]
          [1, 1, 1 - 1/10000000000, 1]).map (fun t => admissionsTo 0 t.trace) =
        some 1 ∧
      ([0, 1 - 1/1000000000] : List ℚ)[0]? = some 0 ∧ (1 : ℕ) ≠ 0 := by
  refine ⟨?_, by norm_num, by norm_num⟩
  have habs : |((1:ℚ)/1000000000)| = 1/1000000000 := by norm_num
  norm_num [habs, run_sim_state, run_sim_init, sloop, sdispatch, popMin, selectMin,
    exp_time, ltS, eventLt, payLtS, kindRank, choose, chooseAux, admissionsTo, isArr]
  decide

/-- C9 amended: a zero-probability server at a positive index is never chosen
and receives zero admissions in every completed run, with no assumption on the
draws; a zero-probability server at index 0 can only be reached through the
scan fallthrough `chosen = 0`, which requires the draw to be at least the sum
of the probabilities — impossible when the probabilities sum to exactly 1 and
the draw lies in [0, 1). -/
theorem C9_zero_probability :
    (∀ (T : ℚ) (probs : List ℚ) (lam : ℚ) (queues : List ℤ) (mus : List ℚ)
        (draws : List ℚ) (t : SState) (i : ℕ),
      run_sim_state T probs lam queues mus draws = some t → i ≠ 0 →
        probs[i]? = some 0 → admissionsTo i t.trace = 0) ∧
    (∀ (probs : List ℚ) (r : ℚ) (i : ℕ), probs.sum = 1 → 0 ≤ r → r < 1 →
      probs[i]? = some 0 → choose probs r ≠ i) := by
  constructor
  · intro T probs lam queues mus draws t i h hi hp
    exact run_sim_admissions h hi hp
  · intro probs r i hsum hr0 hr1 hp
    exact choose_ne_zero_prob_exact probs r hsum hr0 hr1 i hp

/-- C9 witness: a concrete run with a zero-probability third server, and the
router refusing a zero-probability index for a concrete in-range draw. -/
theorem C9_witness :
    admissionsTo 2
        [SEntry.mk (Event.mk 1 EKind.arrival none) (some 0) true,
         SEntry.mk (Event.mk 2 EKind.departure (some 0)) none true] = 0 ∧
      choose [1/2, 1/2, 0] (1/2) ≠ 2 := by
  constructor
  · exact C9_zero_probability.1 1 [1/2, 1/2, 0] 1 [0, 0, 0] [1, 1, 1] [1, 1, 1/4, 1]
      (SState.mk [Server.mk [] false 1 1 0, Server.mk [] false 1 1 0,
          Server.mk [] false 1 1 0] 1 0 0 1 [] 2 []
        [SEntry.mk (Event.mk 1 EKind.arrival none) (some 0) true,
         SEntry.mk (Event.mk 2 EKind.departure (some 0)) none true]) 2
      (by norm_num [run_sim_state, run_sim_init, sloop, sdispatch, popMin, selectMin,
        exp_time, ltS, eventLt, payLtS, kindRank, choose, chooseAux])
      (by norm_num) (by norm_num)
  · exact C9_zero_probability.2 [1/2, 1/2, 0] (1/2) 2 (by norm_num) (by norm_num)
      (by norm_num) (by norm_num)

/-- C10: at every reachable loop boundary of both engines the event queue
holds at most one Arrival; it holds exactly one pending Departure for server i
iff server i is busy; hence it never holds more than M + 1 events for M
servers (2 for the single-server engine). -/
theorem C10_queue_bound :
    (∀ (lam mu : ℚ) (cap : ℤ) (horizon : ℚ) (draws : List ℚ) (s0 t : MState),
      run_mm1n_init lam mu cap horizon draws = some s0 → MReach lam mu cap s0 t →
        t.events.countP isArr ≤ 1 ∧
          (t.events.countP isDep = 1 ↔ t.serverBusy = true) ∧
          t.events.length ≤ 1 + 1) ∧
    (∀ (T : ℚ) (probs : List ℚ) (lam : ℚ) (queues : List ℤ) (mus : List ℚ)
        (draws : List ℚ) (s0 t : SState),
      run_sim_init T probs lam queues mus draws = some s0 → SReach T lam probs s0 t →
        t.events.countP isArr ≤ 1 ∧
          (∀ i srv, t.servers[i]? = some srv →
            (t.events.countP (isDepFor i) = 1 ↔ srv.busy = true)) ∧
          t.events.length ≤ t.servers.length + 1) := by
  constructor
  · intro lam mu cap horizon draws s0 t hinit hr
    have hg := mreach_good (run_mm1n_init_good hinit).1 hr
    refine ⟨le_of_eq hg.2.2.2.2.1, ?_, mgood_events_length hg⟩
    have hdep := hg.2.2.2.2.2.1
    constructor
    · intro h1
      by_contra hb
      rw [if_neg hb] at hdep
      omega
    · intro hb
      rw [hb, if_pos rfl] at hdep
      exact hdep
  · intro T probs lam queues mus draws s0 t hinit hr
    have hg := sreach_good (run_sim_init_good hinit).1 hr
    have hlen := hg.1
    refine ⟨hg.2.2.1, ?_, by rw [hlen]; exact sgood_events_length hg⟩
    intro i srv hget
    have hdep := hg.2.2.2.2.1 i srv hget
    constructor
    · intro h1
      by_contra hb
      rw [if_neg hb] at hdep
      omega
    · intro hb
      rw [hb, if_pos rfl] at hdep
      exact hdep

/-- C10 witness: the queue bounds at the (reachable) initial states. -/
theorem C10_witness :
    (((MState.mk 0 false 0 [] 0 0 0 [Event.mk 1 EKind.arrival none] [] []).events.countP
          isArr ≤ 1 ∧
        ((MState.mk 0 false 0 [] 0 0 0 [Event.mk 1 EKind.arrival none] [] []).events.countP
            isDep = 1 ↔
          (MState.mk 0 false 0 [] 0 0 0 [Event.mk 1 EKind.arrival none] [] []).serverBusy =
            true) ∧
        (MState.mk 0 false 0 [] 0 0 0
          [Event.mk 1 EKind.arrival none] [] []).events.length ≤ 1 + 1)) ∧
    ((SState.mk [Server.mk [] false 1 1 0] 0 0 0 0
          [Event.mk 1 EKind.arrival none] 0 [] []).events.countP isArr ≤ 1 ∧
      (∀ i srv, (SState.mk [Server.mk [] false 1 1 0] 0 0 0 0
            [Event.mk 1 EKind.arrival none] 0 [] []).servers[i]? = some srv →
        ((SState.mk [Server.mk [] false 1 1 0] 0 0 0 0
            [Event.mk 1 EKind.arrival none] 0 [] []).events.countP (isDepFor i) = 1 ↔
          srv.busy = true)) ∧
      (SState.mk [Server.mk [] false 1 1 0] 0 0 0 0
          [Event.mk 1 EKind.arrival none] 0 [] []).events.length ≤
        (SState.mk [Server.mk [] false 1 1 0] 0 0 0 0
          [Event.mk 1 EKind.arrival none] 0 [] []).servers.length + 1) := by
  constructor
  · exact C10_queue_bound.1 1 1 1 1 [1] _ _
      (by norm_num [run_mm1n_init, exp_time]) (MReach.refl _)
  · exact C10_queue_bound.2 1 [1] 1 [0] [1] [1] _ _
      (by norm_num [run_sim_init, exp_time]) (SReach.refl _)

end QSim
